import Mathlib

/-!
Shallow embedding of the NotWasm-to-WebAssembly backend of `jankscripten`
(`src/libjankscripten/src/notwasm/translation.rs`) and proofs about it.

The IR syntax (`notwasm/syntax.rs`), the runtime-binding table
(`notwasm/rt_bindings.rs`) and the IR type checker (`notwasm/type_checking.rs`)
are declared by `notwasm/mod.rs` but their sources are not in the repository
snapshot; they are modelled from the specification and from their uses in
`translation.rs`, `parser.rs`, `test_wasm.rs` and `shared/types.rs`.  All
translation functions below follow `translation.rs` line by line; Rust
`panic!`/`expect`/`todo!` exits are modelled as `Option.none`.
-/

namespace NotWasm

/-- Modelled from the spec: NotWasm types (`notwasm/syntax.rs` is not under
`src/`).  The variants are those used by `translation.rs` (`Fn`, `F64`) and by
`shared/types.rs::notwasm_typ` (`Any`, `F64`, `I32`, `Bool`, `Fn`, `String`,
`Array`, `DynObject`), plus the `HT` container type used by the parser tests. -/
inductive Ty where
  | i32 : Ty
  | f64 : Ty
  | bool : Ty
  | str : Ty
  | any : Ty
  | array : Ty
  | dynObject : Ty
  | ht : Ty → Ty
  | fn : List Ty → Option Ty → Ty

/-- Modelled from the spec: function types `FnType { args, result }` as used by
`translation.rs` (`func.fn_type.args`, `func.fn_type.result`). -/
structure FnType where
  args : List Ty
  result : Option Ty

/-- Modelled from the spec: NotWasm identifiers.  `translation.rs` and
`parser.rs` only construct `Id::Named`. -/
inductive NId where
  | named : String → NId
deriving DecidableEq

/-- Modelled from the spec: NotWasm labels.  `Label::App` is the goto
placeholder that must be eliminated by `elim_gotos` before lowering
(`translation.rs` panics on it). -/
inductive NLabel where
  | named : String → NLabel
  | app : Nat → NLabel
deriving DecidableEq

/-- Modelled from the spec: literals.  `translation.rs` handles `I32`,
`Interned`, `String` (panic: "uninterned string") and `Bool`; every other
variant (floating-point literals, written `1f` in the NotWasm parser) falls
into the `_ => todo!()` branch.  The `f64` payload is irrelevant to
translation (the `todo!()` aborts before reading it), so it is not carried. -/
inductive Lit where
  | i32 : Int → Lit
  | f64 : Lit
  | string : String → Lit
  | interned : Nat → Lit
  | bool : Bool → Lit

/-- Modelled from the spec: binary operators handled by
`Translate::translate_binop`. -/
inductive BinaryOp where
  | i32Eq | i32Add | i32Sub | i32GT | i32Ge | i32Le | i32Mul | i32And | i32Or
deriving DecidableEq

/-- Modelled from the spec: atoms — side-effect-free value-producing leaves
(`N::Atom` as matched by `Translate::translate_atom`). -/
inductive Atom where
  | lit : Lit → Atom
  | id : NId → Atom
  | htGet : Atom → Atom → Ty → Atom
  | index : Atom → Atom → Ty → Atom
  | stringLen : Atom → Atom
  | binary : BinaryOp → Atom → Atom → Atom

/-- Modelled from the spec: expressions (`N::Expr` as matched by
`Translate::translate_expr`). -/
inductive Expr where
  | atom : Atom → Expr
  | ht : Ty → Expr
  | array : Ty → Expr
  | htSet : Atom → Atom → Atom → Ty → Expr
  | push : Atom → Atom → Ty → Expr
  | callDirect : NId → List NId → Expr
  | callIndirect : NId → FnType → List NId → Expr
  | toString : Atom → Expr

/-- Modelled from the spec: statements (`N::Stmt` as matched by
`Translate::translate_rec`). -/
inductive Stmt where
  | empty : Stmt
  | block : List Stmt → Stmt
  | var : NId → Expr → Ty → Stmt
  | assign : NId → Expr → Stmt
  | ite : Atom → Stmt → Stmt → Stmt
  | loop : Stmt → Stmt
  | label : NLabel → Stmt → Stmt
  | break_ : NLabel → Stmt
  | ret : Atom → Stmt
  | trap : Stmt
  | goto : NLabel → Stmt

/-- Modelled from the spec: a NotWasm function (`N::Function`): named
parameters, a function type and a body (`translation.rs` uses `func.params`,
`func.fn_type.args`, `func.fn_type.result`, `func.body`). -/
structure Func where
  params : List NId
  fnType : FnType
  body : Stmt

/-- Modelled from the spec: a NotWasm program — an ordered mapping of function
name to function, the globals (whose initializing atoms are what
`translate_parity` feeds to `translate_atom`), and the interned-string data
blob.  The ordered mapping is represented as an association list; being a map,
its keys are distinct, which theorems state as a `Nodup` hypothesis. -/
structure Program where
  functions : List (NId × Func)
  globals : List (NId × Atom)
  data : List Nat

/-! ## WebAssembly-side values (from `parity_wasm` as used by the backend) -/

/-- WebAssembly value types (`parity_wasm::elements::ValueType`). -/
inductive ValueType where
  | i32 | i64 | f32 | f64
deriving DecidableEq, Repr

/-- The WebAssembly instructions emitted by `translation.rs`.  Block-shaped
instructions (`If`, `Loop`, `Block`) are always built with
`BlockType::NoResult` there; `Else`/`End` close them. -/
inductive Instruction where
  | i32Const : Int → Instruction
  | getLocal : Nat → Instruction
  | setLocal : Nat → Instruction
  | getGlobal : Nat → Instruction
  | i32Add | i32Sub | i32Mul | i32Eq | i32GtS | i32GeS | i32LeS | i32And | i32Or : Instruction
  | call : Nat → Instruction
  | callIndirect : Nat → Nat → Instruction
  | ifNR : Instruction
  | elseI : Instruction
  | endI : Instruction
  | loopNR : Instruction
  | blockNR : Instruction
  | br : Nat → Instruction
  | ret : Instruction
  | unreachable : Instruction
deriving DecidableEq, Repr

/-- Interpreting a `u32` value (stored as a `Nat`) as an `i32`, as the Rust
`as i32` casts in `translate_atom` do (`*addr as i32`, `*n as i32`). -/
def u32ToI32 (n : Nat) : Int :=
  if n % 2 ^ 32 < 2 ^ 31 then ((n % 2 ^ 32 : Nat) : Int)
  else ((n % 2 ^ 32 : Nat) : Int) - 2 ^ 32

/-- `N::Type::as_wasm` (`translation.rs`): `F64` maps to wasm `F64`, every
other NotWasm type is represented as a pointer-sized `I32`. -/
def Ty.as_wasm : Ty → ValueType
  | .f64 => .f64
  | _ => .i32

/-- `types_as_wasm` (`translation.rs`). -/
def types_as_wasm (types : List Ty) : List ValueType :=
  types.map Ty.as_wasm

/-- `option_as_wasm` (`translation.rs`). -/
def option_as_wasm (ty : Option Ty) : Option ValueType :=
  ty.map Ty.as_wasm

/-- Modelled from the spec: the `Display` rendering of NotWasm types, used by
`rt_call_mono` to build monomorphized runtime names `name_type`
(`N::Type::fmt` lives in the missing `syntax.rs`).  The exact spellings follow
the parser's type syntax; the theorems below depend only on the name being
`prefix ++ "_" ++ tag`. -/
def Ty.tag : Ty → String
  | .i32 => "i32"
  | .f64 => "f64"
  | .bool => "bool"
  | .str => "str"
  | .any => "any"
  | .array => "array"
  | .dynObject => "DynObject"
  | .ht t => "HT(" ++ t.tag ++ ")"
  | .fn _ _ => "fn"

/-! ## Association lists standing for the `HashMap`s / `im_rc` maps -/

/-- Lookup in an association list (the observable behavior of the `HashMap` /
`im_rc::HashMap` lookups in `translation.rs`). -/
def lookupA {κ α : Type} [DecidableEq κ] : List (κ × α) → κ → Option α
  | [], _ => none
  | (k, v) :: rest, x => if k = x then some v else lookupA rest x

/-- Removal of a key's entries from an association list. -/
def eraseKey {κ α : Type} [DecidableEq κ] (k : κ) : List (κ × α) → List (κ × α)
  | [] => []
  | p :: rest => if p.1 = k then eraseKey k rest else p :: eraseKey k rest

/-- Insert with replacement, the semantics of `HashMap::insert` /
`im_rc::HashMap::insert`. -/
def insertA {κ α : Type} [DecidableEq κ] (k : κ) (v : α) (l : List (κ × α)) :
    List (κ × α) :=
  (k, v) :: eraseKey k l

/-! ## The translator (`struct Translate`, `Env`) -/

/-- `TranslateLabel` (`translation.rs`): a label-stack marker, either an
anonymous structural block or a named NotWasm label. -/
inductive TranslateLabel where
  | unused : TranslateLabel
  | label : NLabel → TranslateLabel
deriving DecidableEq

/-- `IdIndex` (`translation.rs`): what an identifier resolves to — a local
slot with its type, or a top-level function's NotWasm index. -/
inductive IdIndex where
  | Local : Nat → Ty → IdIndex
  | Fun : Nat → IdIndex

/-- `Env` (`translation.rs`): the copy-on-branch scope chain.  `labels` is the
`im_rc::Vector` (index 0 = innermost, pushed with `push_front`), `ids` the
`im_rc::HashMap`. -/
structure Env where
  labels : List TranslateLabel
  ids : List (NId × IdIndex)

/-- `im_rc::Vector::index_of`: index of the first occurrence. -/
def idxOfLabel : List TranslateLabel → TranslateLabel → Option Nat
  | [], _ => none
  | l :: rest, x =>
    if l = x then some 0 else (idxOfLabel rest x).map (· + 1)

/-- `Env::index_of_id` (`translation.rs`): resolve an identifier to its local
slot; an unbound identifier or a function identifier panics (`none`). -/
def Env.index_of_id (env : Env) (x : NId) : Option Nat :=
  match lookupA env.ids x with
  | some (.Local i _) => some i
  | some (.Fun _) => none
  | none => none

/-- Push an `Env.ids` binding (`env.ids.insert`). -/
def Env.insertId (env : Env) (x : NId) (v : IdIndex) : Env :=
  { env with ids := insertA x v env.ids }

/-- Push a label marker onto the front of the label stack
(`env.labels.push_front`). -/
def Env.pushLabel (env : Env) (l : TranslateLabel) : Env :=
  { env with labels := l :: env.labels }

/-- The mutable fields of `struct Translate`: the emitted instructions, the
declared local types and the next free local slot.  The read-only
`rt_indexes` / `type_indexes` references are passed as arguments. -/
structure TState where
  out : List Instruction
  locals : List ValueType
  nextId : Nat
deriving Repr

/-- `self.out.push(i)`. -/
def emit (st : TState) (i : Instruction) : TState :=
  { st with out := st.out ++ [i] }

/-- The runtime linkage table `rt_indexes : HashMap<String, u32>`. -/
abbrev RtIdx := List (String × Nat)

/-- A deduplicated wasm signature: `(Vec<ValueType>, Option<ValueType>)`. -/
abbrev WasmSig := List ValueType × Option ValueType

/-- `type_indexes : FuncTypeMap = HashMap<(Vec<ValueType>, Option<ValueType>), u32>`. -/
abbrev TyIdx := List (WasmSig × Nat)

/-- `Translate::translate_binop` (`translation.rs`). -/
def translate_binop (op : BinaryOp) : Instruction :=
  match op with
  | .i32Eq => .i32Eq
  | .i32Add => .i32Add
  | .i32Sub => .i32Sub
  | .i32GT => .i32GtS
  | .i32Ge => .i32GeS
  | .i32Le => .i32LeS
  | .i32Mul => .i32Mul
  | .i32And => .i32And
  | .i32Or => .i32Or

/-- `Translate::rt_call` (`translation.rs`): emit a call to a runtime function
by name; a missing name is a fatal compile-time error (`panic!("cannot find rt
{}")`, modelled as `none`). -/
def rt_call (rt : RtIdx) (name : String) (st : TState) : Option TState :=
  match lookupA rt name with
  | some i => some (emit st (.call i))
  | none => none

/-- `Translate::rt_call_mono` (`translation.rs`): call the monomorphized
runtime function `name_type`. -/
def rt_call_mono (rt : RtIdx) (name : String) (ty : Ty) (st : TState) :
    Option TState :=
  rt_call rt (name ++ "_" ++ ty.tag) st

/-- The constant `JEN_STRINGS_IDX` (`translation.rs`). -/
def JEN_STRINGS_IDX : Nat := 0

/-- `Translate::translate_atom` (`translation.rs`).  Failure (`none`) models
the panics (`uninterned string`, unbound identifier, missing runtime linkage)
and the `todo!()` reached by floating-point literals. -/
def translate_atom (rt : RtIdx) (env : Env) : Atom → TState → Option TState
  | .lit l, st =>
    match l with
    | .i32 i => some (emit st (.i32Const i))
    | .interned addr =>
      some (emit (emit (emit st (.getGlobal JEN_STRINGS_IDX))
        (.i32Const (u32ToI32 addr))) .i32Add)
    | .string _ => none
    | .bool b => some (emit st (.i32Const (if b then 1 else 0)))
    | .f64 => none
  | .id x, st =>
    match lookupA env.ids x with
    | some (.Local n _) => some (emit st (.getLocal n))
    | some (.Fun n) => some (emit st (.i32Const (u32ToI32 n)))
    | none => none
  | .htGet ht field ty, st => do
    let st ← translate_atom rt env ht st
    let st ← translate_atom rt env field st
    rt_call_mono rt "ht_get" ty st
  | .index arr idx ty, st => do
    let st ← translate_atom rt env arr st
    let st ← translate_atom rt env idx st
    rt_call_mono rt "array_index" ty st
  | .stringLen s, st => do
    let st ← translate_atom rt env s st
    rt_call rt "string_len" st
  | .binary op a b, st => do
    let st ← translate_atom rt env a st
    let st ← translate_atom rt env b st
    some (emit st (translate_binop op))

/-- The argument-pushing loop of the `N::Expr::CallDirect` branch: each
argument is resolved as a local and fetched with `GetLocal`. -/
def push_args (env : Env) : List NId → TState → Option TState
  | [], st => some st
  | arg :: rest, st => do
    let i ← env.index_of_id arg
    push_args env rest (emit st (.getLocal i))

/-- `Translate::translate_expr` (`translation.rs`).  The `CallIndirect`
branch is the unimplemented stub `panic!("Indirect calls")`. -/
def translate_expr (rt : RtIdx) (env : Env) : Expr → TState → Option TState
  | .atom a, st => translate_atom rt env a st
  | .ht ty, st => rt_call_mono rt "ht_new" ty st
  | .array ty, st => rt_call_mono rt "array_new" ty st
  | .htSet ht field val ty, st => do
    let st ← translate_atom rt env ht st
    let st ← translate_atom rt env field st
    let st ← translate_atom rt env val st
    rt_call_mono rt "ht_set" ty st
  | .push arr val ty, st => do
    let st ← translate_atom rt env arr st
    let st ← translate_atom rt env val st
    rt_call_mono rt "array_push" ty st
  | .callDirect f args, st => do
    let st ← push_args env args st
    match lookupA env.ids f with
    | some (.Fun i) => some (emit st (.call ((i + rt.length) % 2 ^ 32)))
    | _ => none
  | .callIndirect _ _ _, _ => none
  | .toString a, st => do
    let st ← translate_atom rt env a st
    rt_call rt "string_from_str" st

mutual

/-- `Translate::translate_rec` (`translation.rs`).  The environment is
mutated in place in Rust, so the function returns the updated environment;
nested scopes clone it, so `Block`/`If`/`Loop`/`Label` return the incoming
environment unchanged. -/
def translate_rec (rt : RtIdx) (stmt : Stmt) (env : Env) (st : TState) :
    Option (TState × Env) :=
  match stmt with
  | .empty => some (st, env)
  | .block ss => do
    let (st', _) ← translate_rec_list rt ss env st
    some (st', env)
  | .var x e ty => do
    let st ← translate_expr rt env e st
    let index := st.nextId
    let st := { st with nextId := index + 1, locals := st.locals ++ [ty.as_wasm] }
    let env := env.insertId x (.Local index ty)
    some (emit st (.setLocal index), env)
  | .assign x e => do
    let st ← translate_expr rt env e st
    let i ← env.index_of_id x
    some (emit st (.setLocal i), env)
  | .ite cond conseq alt => do
    let st ← translate_atom rt env cond st
    let st := emit st .ifNR
    let (st, _) ← translate_rec rt conseq (env.pushLabel .unused) st
    let st := emit st .elseI
    let (st, _) ← translate_rec rt alt (env.pushLabel .unused) st
    some (emit st .endI, env)
  | .loop body => do
    let st := emit st .loopNR
    let (st, _) ← translate_rec rt body (env.pushLabel .unused) st
    some (emit (emit st (.br 0)) .endI, env)
  | .label x s =>
    match x with
    | .app _ => none
    | _ => do
      let st := emit st .blockNR
      let (st, _) ← translate_rec rt s (env.pushLabel (.label x)) st
      some (emit st .endI, env)
  | .break_ l => do
    let i ← idxOfLabel env.labels (.label l)
    some (emit st (.br i), env)
  | .ret a => do
    let st ← translate_atom rt env a st
    some (emit st .ret, env)
  | .trap => some (emit st .unreachable, env)
  | .goto _ => none

/-- The statement loop of the `N::Stmt::Block` branch: each statement in a
block can alter the environment of its successor. -/
def translate_rec_list (rt : RtIdx) (ss : List Stmt) (env : Env) (st : TState) :
    Option (TState × Env) :=
  match ss with
  | [] => some (st, env)
  | s :: rest => do
    let (st', env') ← translate_rec rt s env st
    translate_rec_list rt rest env' st'

end

/-! ## Function translation (`translate_func`) -/

/-- A translated wasm function, as assembled by the `parity_wasm` builder
calls at the end of `translate_func`: signature, locals and body
instructions. -/
structure FuncDef where
  params : List ValueType
  result : Option ValueType
  locals : List ValueType
  body : List Instruction
deriving Repr

/-- The parameter-binding loop at the start of `translate_func`: each
parameter name is zipped with its type and bound to the next local slot
(`translator.next_id` starts at 0). -/
def bind_params (env : Env) : List (NId × Ty) → Nat → Env × Nat
  | [], n => (env, n)
  | (x, ty) :: rest, n =>
    bind_params (env.insertId x (.Local n ty)) rest (n + 1)

/-- The body of `translate_func` before the `main` check: fresh translator,
bind the parameters, translate the body, append `End`.  Returns the raw
instruction list and the accumulated locals. -/
def lower_body (rt : RtIdx) (env : Env) (func : Func) :
    Option (List Instruction × List ValueType) := do
  let (env, n) := bind_params env (func.params.zip func.fnType.args) 0
  let (st, _) ← translate_rec rt func.body env { out := [], locals := [], nextId := n }
  some (st.out ++ [.endI], st.locals)

/-- `translate_func` (`translation.rs`): translate one NotWasm function; if
its name is `main`, prepend a call to the runtime's `init` entry point
(missing `init` is the fatal `expect("no init")`). -/
def translate_func (rt : RtIdx) (_type_indexes : TyIdx) (env : Env)
    (func : Func) (name : NId) : Option FuncDef := do
  let (insts, locals) ← lower_body rt env func
  let insts ←
    if name = NId.named "main" then
      match lookupA rt "init" with
      | some i => some (Instruction.call i :: insts)
      | none => none
    else
      some insts
  some { params := types_as_wasm func.fnType.args,
         result := option_as_wasm func.fnType.result,
         locals := locals,
         body := insts }

/-! ## Module assembly (`translate_parity`) -/

/-- The parts of the `parity_wasm` module that `translate_parity` builds:
the deduplicated type section, the function imports (name, type index), the
memory and global imports, the data segment, the indirect-call table, the
function bodies, and the exports. -/
structure Module where
  types : List WasmSig
  funcImports : List (String × Nat)
  memoryImport : Bool
  globalImports : List String
  dataOffsetGlobal : Nat
  data : List Nat
  tableMin : Nat
  table : List (Nat × Nat)
  funcs : List FuncDef
  exports : List (String × Nat)

/-- Index of the first occurrence of an element in a list. -/
def firstIdx {A : Type} [DecidableEq A] : List A → A → Option Nat
  | [], _ => none
  | a :: rest, x =>
    if a = x then some 0 else (firstIdx rest x).map (· + 1)

/-- `parity_wasm`'s `ModuleBuilder::push_signature`: deduplicating push into
the type section, returning the signature's index. -/
def push_signature (types : List WasmSig) (sig : WasmSig) :
    List WasmSig × Nat :=
  match firstIdx types sig with
  | some i => (types, i)
  | none => (types ++ [sig], types.length)

/-- The `assert_eq!(*type_indexes.entry(wasm_ty).or_insert(i_check), i_check)`
step of the runtime-import loop: record the signature's type index, failing if
the deduplication table disagrees with the type section. -/
def tyIdx_entry_check (tyIdx : TyIdx) (sig : WasmSig) (iCheck : Nat) :
    Option TyIdx :=
  match lookupA tyIdx sig with
  | some j => if j = iCheck then some tyIdx else none
  | none => some (tyIdx ++ [(sig, iCheck)])

/-- The runtime-import loop of `translate_parity`: for each runtime binding
(in order) check it has function type (else `panic!`), push its wasm
signature, record it in `type_indexes` (the `assert_eq!` on the deduplication
is modelled as a failure branch), record its import index in `rt_indexes`,
and import it.  Accumulates `(type section, function imports, rt_indexes,
type_indexes)`. -/
def rt_import_loop :
    List (String × Ty) → Nat →
    List WasmSig × List (String × Nat) × RtIdx × TyIdx →
    Option (List WasmSig × List (String × Nat) × RtIdx × TyIdx)
  | [], _, acc => some acc
  | (name, ty) :: rest, funcI, (types, imports, rtIdx, tyIdx) =>
    match ty with
    | .fn params ret => do
      let wasmTy : WasmSig := (types_as_wasm params, option_as_wasm ret)
      let (types', iCheck) := push_signature types wasmTy
      let tyIdx' ← tyIdx_entry_check tyIdx wasmTy iCheck
      rt_import_loop rest (funcI + 1)
        (types', imports ++ [(name, iCheck)], insertA name funcI rtIdx, tyIdx')
    | _ => none

/-- The wasm signature of a NotWasm function, the deduplication key of
`type_indexes` (`has to be wasm types to dedup properly`). -/
def funcSig (f : Func) : WasmSig :=
  (types_as_wasm f.fnType.args, option_as_wasm f.fnType.result)

/-- The user-function type-registration loop of `translate_parity`:
`type_indexes.entry(func_ty).or_insert(next_index)` for each NotWasm
function, continuing the deduplication table built for the runtime imports. -/
def add_user_types (tyIdx : TyIdx) : List Func → TyIdx
  | [] => tyIdx
  | func :: rest =>
    let tyIdx' :=
      match lookupA tyIdx (funcSig func) with
      | some _ => tyIdx
      | none => tyIdx ++ [(funcSig func, tyIdx.length)]
    add_user_types tyIdx' rest

/-- The globals loop of `translate_parity`: each global's atom is translated
with a fresh translator over empty `rt_indexes`/`type_indexes` maps; the
instructions are discarded (`// TODO: do a global`), but a panic inside
`translate_atom` still aborts compilation. -/
def globals_loop (env : Env) : List (NId × Atom) → Option Unit
  | [] => some ()
  | (_, atom) :: rest => do
    let _ ← translate_atom [] env atom { out := [], locals := [], nextId := 0 }
    globals_loop env rest

/-- The main-finding scan inside the table loop of `translate_parity`: the
last function named `main` (a map has at most one) records its wasm index. -/
def find_main_index (names : List NId) (offset : Nat) : Option Nat :=
  (names.enum.foldl
    (fun acc (p : Nat × NId) =>
      if p.2 = NId.named "main" then some ((p.1 + offset) % 2 ^ 32) else acc)
    none)

/-- The enumerated loop building the initial environment of
`translate_parity`: `env.ids.insert(name, IdIndex::Fun(index))` for each
function, `index` counting from `i`. -/
def initial_env_loop : List (NId × Func) → Nat → Env → Env
  | [], _, env => env
  | (name, _) :: rest, i, env =>
    initial_env_loop rest (i + 1) (env.insertId name (.Fun i))

/-- The initial environment of `translate_parity`, mapping every function
name to its NotWasm index (`IdIndex::Fun`); an index exceeding `u32` is the
fatal `expect("too many functions")`, checked separately. -/
def initial_env (functions : List (NId × Func)) : Env :=
  initial_env_loop functions 0 { labels := [], ids := [] }

/-- The body-translation loop of `translate_parity`: translate each function
and push it onto the module (`push_function` also resolves the function's
signature into the type section). -/
def push_functions (rt : RtIdx) (tyIdx : TyIdx) (env : Env)
    (functions : List (NId × Func)) (types : List WasmSig) :
    Option (List FuncDef × List WasmSig) :=
  match functions with
  | [] => some ([], types)
  | (name, func) :: rest => do
    let fd ← translate_func rt tyIdx env func name
    let (types', _) := push_signature types (fd.params, fd.result)
    let (fds, types'') ← push_functions rt tyIdx env rest types'
    some (fd :: fds, types'')

/-- `translate_parity` (`translation.rs`): assemble the whole wasm module.
`rts` stands for the result of `get_rt_bindings()`, whose source
(`rt_bindings.rs`) is not under `src/`; it is passed as a parameter.  Every
`panic!`/`expect` exit is `none`. -/
def translate_parity (rts : List (String × Ty)) (p : Program) : Option Module := do
  -- `index.try_into().expect("too many functions")`
  if p.functions.length ≤ 2 ^ 32 then
    let env := initial_env p.functions
    let (types, imports, rtIdx, tyIdx) ← rt_import_loop rts 0 ([], [], [], [])
    let tyIdx := add_user_types tyIdx (p.functions.map Prod.snd)
    let () ← globals_loop env p.globals
    let offset := rtIdx.length
    let mainIndex := find_main_index (p.functions.map Prod.fst) offset
    let table := (List.range p.functions.length).map
      (fun i => (i, (i + offset) % 2 ^ 32))
    let (funcs, types) ← push_functions rtIdx tyIdx env p.functions types
    -- `main_index.expect("no main")`
    let mainIndex ← mainIndex
    some { types := types,
           funcImports := imports,
           memoryImport := true,
           globalImports := ["JEN_STRINGS"],
           dataOffsetGlobal := JEN_STRINGS_IDX,
           data := p.data,
           tableMin := p.functions.length % 2 ^ 32,
           table := table,
           funcs := funcs,
           exports := [("main", mainIndex)] }
  else none

/-- Modelled from the spec: the runtime linkage table returned by
`get_rt_bindings()` (`rt_bindings.rs` is not under `src/`).  Per §6 the
runtime provides a zero-argument `init`, string construction and length, and
one monomorphized entry point per (operation, concrete element type) pair,
named `operation_type`.  A representative fixed table. -/
def get_rt_bindings : List (String × Ty) :=
  [ ("init", .fn [] none),
    ("string_from_str", .fn [.str] (some .str)),
    ("string_len", .fn [.str] (some .i32)),
    ("ht_new_i32", .fn [] (some (.ht .i32))),
    ("ht_new_f64", .fn [] (some (.ht .f64))),
    ("ht_get_i32", .fn [.ht .i32, .str] (some .i32)),
    ("ht_get_f64", .fn [.ht .f64, .str] (some .f64)),
    ("ht_set_i32", .fn [.ht .i32, .str, .i32] (some .i32)),
    ("ht_set_f64", .fn [.ht .f64, .str, .f64] (some .f64)),
    ("array_new_i32", .fn [] (some .array)),
    ("array_push_i32", .fn [.array, .i32] (some .i32)),
    ("array_index_i32", .fn [.array, .i32] (some .i32)) ]

/-- `translate` (`translation.rs`) up to serialization: the whole backend on
the repository's own runtime linkage table. -/
def translate (p : Program) : Option Module :=
  translate_parity get_rt_bindings p

/-! ## Frame lemmas: translation only appends to the instruction stream -/

theorem emit_out (st : TState) (i : Instruction) :
    (emit st i) = { st with out := st.out ++ [i] } := rfl

theorem rt_call_frame {rt : RtIdx} {name : String} {st st' : TState}
    (h : rt_call rt name st = some st') :
    ∃ l, st' = { st with out := st.out ++ l } := by
  unfold rt_call at h
  cases hl : lookupA rt name with
  | none => rw [hl] at h; exact absurd h (by simp)
  | some i => rw [hl] at h; exact ⟨[.call i], by simpa [emit] using h.symm⟩

theorem rt_call_mono_frame {rt : RtIdx} {name : String} {ty : Ty} {st st' : TState}
    (h : rt_call_mono rt name ty st = some st') :
    ∃ l, st' = { st with out := st.out ++ l } :=
  rt_call_frame h

theorem translate_atom_frame {rt : RtIdx} {env : Env} (a : Atom) :
    ∀ {st st' : TState}, translate_atom rt env a st = some st' →
    ∃ l, st' = { st with out := st.out ++ l } := by
  induction a with
  | lit l =>
    intro st st' h
    cases l <;> simp only [translate_atom] at h
    case i32 i => exact ⟨_, by simpa [emit] using h.symm⟩
    case f64 => exact absurd h (by simp)
    case string s => exact absurd h (by simp)
    case interned addr =>
      refine ⟨[.getGlobal JEN_STRINGS_IDX, .i32Const (u32ToI32 addr), .i32Add], ?_⟩
      simpa [emit, List.append_assoc] using h.symm
    case bool b => exact ⟨_, by simpa [emit] using h.symm⟩
  | id x =>
    intro st st' h
    simp only [translate_atom] at h
    cases hl : lookupA env.ids x with
    | none => rw [hl] at h; exact absurd h (by simp)
    | some ix =>
      rw [hl] at h
      cases ix with
      | Local n t => exact ⟨[.getLocal n], by simpa [emit] using h.symm⟩
      | Fun n => exact ⟨[.i32Const (u32ToI32 n)], by simpa [emit] using h.symm⟩
  | htGet ht field ty ih1 ih2 =>
    intro st st' h
    simp only [translate_atom, Option.bind_eq_bind, Option.bind_eq_some] at h
    obtain ⟨s1, h1, s2, h2, h3⟩ := h
    obtain ⟨l1, rfl⟩ := ih1 h1
    obtain ⟨l2, rfl⟩ := ih2 h2
    obtain ⟨l3, rfl⟩ := rt_call_mono_frame h3
    exact ⟨l1 ++ l2 ++ l3, by simp [List.append_assoc]⟩
  | index arr idx ty ih1 ih2 =>
    intro st st' h
    simp only [translate_atom, Option.bind_eq_bind, Option.bind_eq_some] at h
    obtain ⟨s1, h1, s2, h2, h3⟩ := h
    obtain ⟨l1, rfl⟩ := ih1 h1
    obtain ⟨l2, rfl⟩ := ih2 h2
    obtain ⟨l3, rfl⟩ := rt_call_mono_frame h3
    exact ⟨l1 ++ l2 ++ l3, by simp [List.append_assoc]⟩
  | stringLen s ih =>
    intro st st' h
    simp only [translate_atom, Option.bind_eq_bind, Option.bind_eq_some] at h
    obtain ⟨s1, h1, h2⟩ := h
    obtain ⟨l1, rfl⟩ := ih h1
    obtain ⟨l2, rfl⟩ := rt_call_frame h2
    exact ⟨l1 ++ l2, by simp [List.append_assoc]⟩
  | binary op a b ih1 ih2 =>
    intro st st' h
    simp only [translate_atom, Option.bind_eq_bind, Option.bind_eq_some] at h
    obtain ⟨s1, h1, s2, h2, h3⟩ := h
    obtain ⟨l1, rfl⟩ := ih1 h1
    obtain ⟨l2, rfl⟩ := ih2 h2
    injection h3 with h3
    rw [← h3]
    exact ⟨l1 ++ l2 ++ [translate_binop op], by simp [emit, List.append_assoc]⟩

theorem push_args_frame {env : Env} (args : List NId) :
    ∀ {st st' : TState}, push_args env args st = some st' →
    ∃ l, st' = { st with out := st.out ++ l } := by
  induction args with
  | nil =>
    intro st st' h
    exact ⟨[], by simpa [push_args] using h.symm⟩
  | cons a rest ih =>
    intro st st' h
    simp only [push_args, Option.bind_eq_bind, Option.bind_eq_some] at h
    obtain ⟨i, _, h2⟩ := h
    obtain ⟨l, rfl⟩ := ih h2
    exact ⟨Instruction.getLocal i :: l, by simp [emit, List.append_assoc]⟩

theorem translate_expr_frame {rt : RtIdx} {env : Env} (e : Expr) :
    ∀ {st st' : TState}, translate_expr rt env e st = some st' →
    ∃ l, st' = { st with out := st.out ++ l } := by
  cases e with
  | atom a => exact fun h => translate_atom_frame a h
  | ht ty => exact fun h => rt_call_mono_frame h
  | array ty => exact fun h => rt_call_mono_frame h
  | htSet ht field val ty =>
    intro st st' h
    simp only [translate_expr, Option.bind_eq_bind, Option.bind_eq_some] at h
    obtain ⟨s1, h1, s2, h2, s3, h3, h4⟩ := h
    obtain ⟨l1, rfl⟩ := translate_atom_frame ht h1
    obtain ⟨l2, rfl⟩ := translate_atom_frame field h2
    obtain ⟨l3, rfl⟩ := translate_atom_frame val h3
    obtain ⟨l4, rfl⟩ := rt_call_mono_frame h4
    exact ⟨l1 ++ l2 ++ l3 ++ l4, by simp [List.append_assoc]⟩
  | push arr val ty =>
    intro st st' h
    simp only [translate_expr, Option.bind_eq_bind, Option.bind_eq_some] at h
    obtain ⟨s1, h1, s2, h2, h3⟩ := h
    obtain ⟨l1, rfl⟩ := translate_atom_frame arr h1
    obtain ⟨l2, rfl⟩ := translate_atom_frame val h2
    obtain ⟨l3, rfl⟩ := rt_call_mono_frame h3
    exact ⟨l1 ++ l2 ++ l3, by simp [List.append_assoc]⟩
  | callDirect f args =>
    intro st st' h
    simp only [translate_expr, Option.bind_eq_bind, Option.bind_eq_some] at h
    obtain ⟨s1, h1, h2⟩ := h
    obtain ⟨l1, rfl⟩ := push_args_frame args h1
    cases hf : lookupA env.ids f with
    | none => rw [hf] at h2; exact absurd h2 (by simp)
    | some ix =>
      rw [hf] at h2
      cases ix with
      | Local n t => exact absurd h2 (by simp)
      | Fun i =>
        injection h2 with h2
        rw [← h2]
        exact ⟨l1 ++ [.call ((i + rt.length) % 2 ^ 32)], by simp [emit, List.append_assoc]⟩
  | callIndirect f ty args =>
    intro st st' h
    exact absurd h (by simp [translate_expr])
  | toString a =>
    intro st st' h
    simp only [translate_expr, Option.bind_eq_bind, Option.bind_eq_some] at h
    obtain ⟨s1, h1, h2⟩ := h
    obtain ⟨l1, rfl⟩ := translate_atom_frame a h1
    obtain ⟨l2, rfl⟩ := rt_call_frame h2
    exact ⟨l1 ++ l2, by simp [List.append_assoc]⟩

theorem translate_rec_frame (rt : RtIdx) (s : Stmt) (env : Env) (st : TState) :
    ∀ st' env', translate_rec rt s env st = some (st', env') →
      (∃ l, st'.out = st.out ++ l) ∧ env'.labels = env.labels := by
  induction s, env, st using translate_rec.induct rt
    (motive_2 := fun ss env st => ∀ st' env',
      translate_rec_list rt ss env st = some (st', env') →
      (∃ l, st'.out = st.out ++ l) ∧ env'.labels = env.labels) with
  | case1 env st =>
    intro st' env' h
    simp only [translate_rec] at h
    injection h with h
    injection h with h1 h2
    exact ⟨⟨[], by simp [← h1]⟩, by rw [← h2]⟩
  | case2 env st ss ih =>
    intro st' env' h
    simp only [translate_rec, Option.bind_eq_bind, Option.bind_eq_some] at h
    obtain ⟨⟨s1, e1⟩, h1, h2⟩ := h
    obtain ⟨⟨l, hl⟩, _⟩ := ih _ _ h1
    injection h2 with h2
    injection h2 with h2a h2b
    exact ⟨⟨l, by rw [← h2a]; exact hl⟩, by rw [← h2b]⟩
  | case3 env st x e ty =>
    intro st' env' h
    simp only [translate_rec, Option.bind_eq_bind, Option.bind_eq_some] at h
    obtain ⟨s1, h1, h2⟩ := h
    obtain ⟨l1, rfl⟩ := translate_expr_frame e h1
    injection h2 with h2
    injection h2 with h2a h2b
    constructor
    · exact ⟨l1 ++ [.setLocal (st.nextId + (st.out ++ l1).length - (st.out ++ l1).length)],
        by rw [← h2a]; simp [emit, List.append_assoc]⟩
    · rw [← h2b]; rfl
  | case4 env st x e =>
    intro st' env' h
    simp only [translate_rec, Option.bind_eq_bind, Option.bind_eq_some] at h
    obtain ⟨s1, h1, i, h2, h3⟩ := h
    obtain ⟨l1, rfl⟩ := translate_expr_frame e h1
    injection h3 with h3
    injection h3 with h3a h3b
    exact ⟨⟨l1 ++ [.setLocal i], by rw [← h3a]; simp [emit, List.append_assoc]⟩,
      by rw [← h3b]⟩
  | case5 env st cond conseq alt ih1 ih2 =>
    intro st' env' h
    simp only [translate_rec, Option.bind_eq_bind, Option.bind_eq_some] at h
    obtain ⟨s1, h1, ⟨s2, e2⟩, h2, ⟨s3, e3⟩, h3, h4⟩ := h
    obtain ⟨l1, rfl⟩ := translate_atom_frame cond h1
    obtain ⟨⟨l2, hl2⟩, _⟩ := ih1 _ _ _ h2
    obtain ⟨⟨l3, hl3⟩, _⟩ := ih2 _ _ _ h3
    injection h4 with h4
    injection h4 with h4a h4b
    constructor
    · refine ⟨l1 ++ [.ifNR] ++ l2 ++ [.elseI] ++ l3 ++ [.endI], ?_⟩
      rw [← h4a]
      simp only [emit] at hl2 hl3 ⊢
      rw [hl3, hl2]
      simp [List.append_assoc]
    · rw [← h4b]
  | case6 env st body stL ih =>
    intro st' env' h
    simp only [translate_rec, Option.bind_eq_bind, Option.bind_eq_some] at h
    obtain ⟨⟨s1, e1⟩, h1, h2⟩ := h
    obtain ⟨⟨l, hl⟩, _⟩ := ih _ _ h1
    injection h2 with h2
    injection h2 with h2a h2b
    constructor
    · refine ⟨[.loopNR] ++ l ++ [.br 0, .endI], ?_⟩
      rw [← h2a]
      simp only [emit] at hl ⊢
      rw [hl]
      have hstL : stL.out = st.out ++ [Instruction.loopNR] := rfl
      rw [hstL]
      simp [List.append_assoc]
    · rw [← h2b]
  | case7 env st s a =>
    intro st' env' h
    simp only [translate_rec] at h
    exact absurd h (by simp)
  | case8 env st x s stL hApp ih =>
    intro st' env' h
    cases x with
    | app a => exact absurd rfl (hApp a)
    | named n =>
    simp only [translate_rec, Option.bind_eq_bind, Option.bind_eq_some] at h
    obtain ⟨⟨s1, e1⟩, h1, h2⟩ := h
    obtain ⟨⟨l, hl⟩, _⟩ := ih _ _ h1
    injection h2 with h2
    injection h2 with h2a h2b
    constructor
    · refine ⟨[.blockNR] ++ l ++ [.endI], ?_⟩
      rw [← h2a]
      simp only [emit] at hl ⊢
      rw [hl]
      have hstL : stL.out = st.out ++ [Instruction.blockNR] := rfl
      rw [hstL]
      simp [List.append_assoc]
    · rw [← h2b]
  | case9 env st l =>
    intro st' env' h
    simp only [translate_rec, Option.bind_eq_bind, Option.bind_eq_some] at h
    obtain ⟨i, h1, h2⟩ := h
    injection h2 with h2
    injection h2 with h2a h2b
    exact ⟨⟨[.br i], by rw [← h2a]; simp [emit]⟩, by rw [← h2b]⟩
  | case10 env st a =>
    intro st' env' h
    simp only [translate_rec, Option.bind_eq_bind, Option.bind_eq_some] at h
    obtain ⟨s1, h1, h2⟩ := h
    obtain ⟨l1, rfl⟩ := translate_atom_frame a h1
    injection h2 with h2
    injection h2 with h2a h2b
    exact ⟨⟨l1 ++ [.ret], by rw [← h2a]; simp [emit, List.append_assoc]⟩, by rw [← h2b]⟩
  | case11 env st =>
    intro st' env' h
    simp only [translate_rec] at h
    injection h with h
    injection h with h1 h2
    exact ⟨⟨[.unreachable], by rw [← h1]; simp [emit]⟩, by rw [← h2]⟩
  | case12 env st a =>
    intro st' env' h
    simp only [translate_rec] at h
    exact absurd h (by simp)
  | case13 env st =>
    rename_i st' env' h
    simp only [translate_rec_list] at h
    injection h with h
    injection h with h1 h2
    exact ⟨⟨[], by simp [← h1]⟩, by rw [← h2]⟩
  | case14 env st s rest ih1 ih2 =>
    rename_i st' env' h
    simp only [translate_rec_list, Option.bind_eq_bind, Option.bind_eq_some] at h
    obtain ⟨⟨s1, e1⟩, h1, h2⟩ := h
    obtain ⟨⟨l1, hl1⟩, hlab1⟩ := ih1 _ _ h1
    obtain ⟨⟨l2, hl2⟩, hlab2⟩ := ih2 _ _ _ _ h2
    exact ⟨⟨l1 ++ l2, by rw [hl2, hl1]; simp [List.append_assoc]⟩,
      by rw [hlab2, hlab1]⟩

/-! ## Association-list lemmas -/

theorem lookupA_insertA_self {κ α : Type} [DecidableEq κ] (k : κ) (v : α)
    (l : List (κ × α)) : lookupA (insertA k v l) k = some v := by
  simp [insertA, lookupA]

theorem lookupA_eraseKey_ne {κ α : Type} [DecidableEq κ] (k x : κ) (hx : x ≠ k)
    (l : List (κ × α)) :
    lookupA (eraseKey k l) x = lookupA l x := by
  induction l with
  | nil => rfl
  | cons p rest ih =>
    by_cases hp : p.1 = k
    · have hpx : ¬ p.1 = x := by rw [hp]; exact fun hc => hx hc.symm
      rw [eraseKey, if_pos hp, ih, lookupA, if_neg hpx]
    · by_cases hpx : p.1 = x
      · rw [eraseKey, if_neg hp, lookupA, if_pos hpx, lookupA, if_pos hpx]
      · rw [eraseKey, if_neg hp, lookupA, if_neg hpx, lookupA, if_neg hpx, ih]

theorem lookupA_insertA_ne {κ α : Type} [DecidableEq κ] (k x : κ) (hx : x ≠ k)
    (v : α) (l : List (κ × α)) :
    lookupA (insertA k v l) x = lookupA l x := by
  have hkx : ¬ k = x := fun hc => hx hc.symm
  simp only [insertA, lookupA, hkx, if_false]
  exact lookupA_eraseKey_ne k x hx l

theorem lookupA_append_left {κ α : Type} [DecidableEq κ] {l : List (κ × α)}
    {k : κ} {v : α} (h : lookupA l k = some v) (l' : List (κ × α)) :
    lookupA (l ++ l') k = some v := by
  induction l with
  | nil => exact absurd h (by simp [lookupA])
  | cons p rest ih =>
    by_cases hp : p.1 = k
    · simpa [lookupA, hp] using h
    · rw [lookupA] at h
      obtain ⟨p1, p2⟩ := p
      simp only at hp
      rw [if_neg hp] at h
      simpa [lookupA, hp] using ih h

theorem lookupA_mem {κ α : Type} [DecidableEq κ] {l : List (κ × α)} {k : κ}
    {v : α} (h : lookupA l k = some v) : (k, v) ∈ l := by
  induction l with
  | nil => exact absurd h (by simp [lookupA])
  | cons p rest ih =>
    obtain ⟨p1, p2⟩ := p
    by_cases hp : p1 = k
    · rw [lookupA, if_pos hp] at h
      injection h with h
      subst hp; subst h
      exact List.mem_cons_self _ _
    · rw [lookupA, if_neg hp] at h
      exact List.mem_cons_of_mem _ (ih h)

theorem lookupA_none_of_not_mem {κ α : Type} [DecidableEq κ] {l : List (κ × α)}
    {k : κ} (h : k ∉ l.map Prod.fst) : lookupA l k = none := by
  induction l with
  | nil => rfl
  | cons p rest ih =>
    simp only [List.map_cons, List.mem_cons, not_or] at h
    rw [lookupA, if_neg (fun hc => h.1 hc.symm)]
    exact ih h.2

theorem lookupA_isSome_of_mem {κ α : Type} [DecidableEq κ] {l : List (κ × α)}
    {k : κ} (h : k ∈ l.map Prod.fst) : (lookupA l k).isSome := by
  induction l with
  | nil => simp at h
  | cons p rest ih =>
    by_cases hp : p.1 = k
    · simp [lookupA, hp]
    · simp only [List.map_cons, List.mem_cons] at h
      rcases h with h | h
      · exact absurd h.symm hp
      · simpa [lookupA, hp] using ih h

/-- Lookup in the environment built by `initial_env_loop`: with distinct
function names, the function listed at position `k` resolves to
`IdIndex::Fun` of its NotWasm index. -/
theorem initial_env_loop_lookup :
    ∀ (l : List (NId × Func)) (i : Nat) (env : Env) (k : Nat) (name : NId)
      (f : Func), (l.map Prod.fst).Nodup → l[k]? = some (name, f) →
      lookupA (initial_env_loop l i env).ids name = some (.Fun (i + k)) := by
  intro l
  induction l with
  | nil => intro i env k name f _ h; simp at h
  | cons p rest ih =>
    intro i env k name f hnd hk
    obtain ⟨p1, p2⟩ := p
    simp only [List.map_cons, List.nodup_cons] at hnd
    cases k with
    | zero =>
      simp only [List.getElem?_cons_zero] at hk
      injection hk with hk
      injection hk with hk1 hk2
      subst hk1
      rw [initial_env_loop]
      have hnotin : p1 ∉ rest.map Prod.fst := hnd.1
      -- later inserts are of names different from `p1`
      have : ∀ (rest' : List (NId × Func)) (j : Nat) (env' : Env),
          p1 ∉ rest'.map Prod.fst →
          lookupA (initial_env_loop rest' j env').ids p1 = lookupA env'.ids p1 := by
        intro rest'
        induction rest' with
        | nil => intro j env' _; rfl
        | cons q rest'' ih2 =>
          intro j env' hq
          obtain ⟨q1, q2⟩ := q
          simp only [List.map_cons, List.mem_cons, not_or] at hq
          rw [initial_env_loop, ih2 _ _ hq.2]
          exact lookupA_insertA_ne q1 p1 hq.1 _ _
      rw [this rest (i + 1) _ hnotin]
      simpa [Env.insertId, Nat.add_zero] using lookupA_insertA_self p1 (IdIndex.Fun i) _
    | succ m =>
      simp only [List.getElem?_cons_succ] at hk
      rw [initial_env_loop]
      have hres := ih (i + 1) (env.insertId p1 (.Fun i)) m name f hnd.2 hk
      have harith : i + 1 + m = i + (m + 1) := by omega
      rw [harith] at hres
      exact hres

theorem initial_env_lookup {functions : List (NId × Func)} {k : Nat}
    {name : NId} {f : Func} (hnd : (functions.map Prod.fst).Nodup)
    (hk : functions[k]? = some (name, f)) :
    lookupA (initial_env functions).ids name = some (.Fun k) := by
  simpa using initial_env_loop_lookup functions 0 _ k name f hnd hk

/-! ## Claim theorems -/

/-- The nested-scope statement forms of `translate_rec`: block, conditional,
loop, labeled body. -/
def isNestedScope : Stmt → Prop
  | .block _ => True
  | .ite _ _ _ => True
  | .loop _ => True
  | .label _ _ => True
  | _ => False

/-- Claim C4: translating a nested scope (block, conditional, loop body, or
labeled body) returns the environment unchanged — bindings added inside the
scope do not leak to siblings or to the parent. -/
theorem scope_env_restored (rt : RtIdx) (s : Stmt) (env : Env) (st : TState)
    (st' : TState) (env' : Env) (hs : isNestedScope s)
    (h : translate_rec rt s env st = some (st', env')) : env' = env := by
  cases s with
  | block ss =>
    simp only [translate_rec, Option.bind_eq_bind, Option.bind_eq_some] at h
    obtain ⟨⟨s1, e1⟩, _, h2⟩ := h
    injection h2 with h2
    injection h2 with _ h2b
    exact h2b.symm
  | ite cond conseq alt =>
    simp only [translate_rec, Option.bind_eq_bind, Option.bind_eq_some] at h
    obtain ⟨s1, _, ⟨s2, e2⟩, _, ⟨s3, e3⟩, _, h4⟩ := h
    injection h4 with h4
    injection h4 with _ h4b
    exact h4b.symm
  | loop body =>
    simp only [translate_rec, Option.bind_eq_bind, Option.bind_eq_some] at h
    obtain ⟨⟨s1, e1⟩, _, h2⟩ := h
    injection h2 with h2
    injection h2 with _ h2b
    exact h2b.symm
  | label x s =>
    cases x with
    | app a => simp [translate_rec] at h
    | named n =>
      simp only [translate_rec, Option.bind_eq_bind, Option.bind_eq_some] at h
      obtain ⟨⟨s1, e1⟩, _, h2⟩ := h
      injection h2 with h2
      injection h2 with _ h2b
      exact h2b.symm
  | empty => exact absurd hs (by simp [isNestedScope])
  | var x e ty => exact absurd hs (by simp [isNestedScope])
  | assign x e => exact absurd hs (by simp [isNestedScope])
  | break_ l => exact absurd hs (by simp [isNestedScope])
  | ret a => exact absurd hs (by simp [isNestedScope])
  | trap => exact absurd hs (by simp [isNestedScope])
  | goto l => exact absurd hs (by simp [isNestedScope])

/-- Witness for C4: a block that binds a fresh variable inside; after the
block, the environment is the one from before it. -/
theorem scope_env_restored_witness :
    (Option.map Prod.snd
      (translate_rec [] (.block [.var (NId.named "x") (.atom (.lit (.i32 7))) .i32])
        { labels := [], ids := [] } { out := [], locals := [], nextId := 0 })) =
    some { labels := [], ids := [] } := by
  have h : translate_rec [] (.block [.var (NId.named "x") (.atom (.lit (.i32 7))) .i32])
      { labels := [], ids := [] } { out := [], locals := [], nextId := 0 } =
      some ({ out := [.i32Const 7, .setLocal 0], locals := [.i32], nextId := 1 },
        { labels := [], ids := [] }) := rfl
  rw [h]
  exact congrArg some
    (scope_env_restored [] (.block [.var (NId.named "x") (.atom (.lit (.i32 7))) .i32])
      { labels := [], ids := [] } { out := [], locals := [], nextId := 0 }
      { out := [.i32Const 7, .setLocal 0], locals := [.i32], nextId := 1 }
      { labels := [], ids := [] } trivial h)

/-- Claim C9: lowering a loop emits the open-loop instruction, then the body
translated in a derived scope with one anonymous label marker pushed, then an
explicit backward branch of distance 0, then the close instruction. -/
theorem loop_lowering_shape (rt : RtIdx) (body : Stmt) (env : Env)
    (st st' : TState) (env' : Env)
    (h : translate_rec rt (.loop body) env st = some (st', env')) :
    ∃ (bodyInsts : List Instruction) (st₁ : TState) (env₁ : Env),
      translate_rec rt body (env.pushLabel .unused) (emit st .loopNR) =
        some (st₁, env₁) ∧
      st₁.out = st.out ++ [.loopNR] ++ bodyInsts ∧
      st' = emit (emit st₁ (.br 0)) .endI ∧
      st'.out = st.out ++ [.loopNR] ++ bodyInsts ++ [.br 0, .endI] ∧
      env' = env := by
  simp only [translate_rec, Option.bind_eq_bind, Option.bind_eq_some] at h
  obtain ⟨⟨s1, e1⟩, h1, h2⟩ := h
  obtain ⟨⟨l, hl⟩, _⟩ := translate_rec_frame rt body (env.pushLabel .unused)
    (emit st .loopNR) _ _ h1
  injection h2 with h2
  injection h2 with h2a h2b
  refine ⟨l, s1, e1, h1, ?_, h2a.symm, ?_, h2b.symm⟩
  · rw [hl]; simp [emit, List.append_assoc]
  · rw [← h2a]
    simp only [emit] at hl ⊢
    rw [hl]
    simp [emit, List.append_assoc]

/-- Witness for C9 at a concrete loop. -/
theorem loop_lowering_shape_witness :
    ∃ (bodyInsts : List Instruction) (st₁ : TState) (env₁ : Env),
      translate_rec [] Stmt.trap
        (Env.pushLabel { labels := [], ids := [] } .unused)
        (emit { out := [], locals := [], nextId := 0 } .loopNR) =
        some (st₁, env₁) ∧
      st₁.out = ([] : List Instruction) ++ [.loopNR] ++ bodyInsts ∧
      ({ out := [.loopNR, .unreachable, .br 0, .endI], locals := [], nextId := 0 } : TState) =
        emit (emit st₁ (.br 0)) .endI ∧
      ({ out := [.loopNR, .unreachable, .br 0, .endI], locals := [], nextId := 0 } : TState).out =
        ([] : List Instruction) ++ [.loopNR] ++ bodyInsts ++ [.br 0, .endI] ∧
      ({ labels := [], ids := [] } : Env) = { labels := [], ids := [] } := by
  have h : translate_rec [] (.loop .trap) { labels := [], ids := [] }
      { out := [], locals := [], nextId := 0 } =
      some ({ out := [.loopNR, .unreachable, .br 0, .endI], locals := [], nextId := 0 },
        { labels := [], ids := [] }) := rfl
  simpa using loop_lowering_shape [] .trap { labels := [], ids := [] }
    { out := [], locals := [], nextId := 0 }
    { out := [.loopNR, .unreachable, .br 0, .endI], locals := [], nextId := 0 }
    { labels := [], ids := [] } h

/-- Claim C3: the branch distance emitted for a break equals the number of
label markers pushed between the break and its target: one intervening label
gives distance 1, none gives distance 0. -/
theorem break_distance_law (rt : RtIdx) (env : Env) (st : TState)
    (l1 l2 : NLabel) (h1 : ∀ a, l1 ≠ NLabel.app a) (h2 : ∀ a, l2 ≠ NLabel.app a)
    (hne : l1 ≠ l2) :
    translate_rec rt (.label l1 (.label l2 (.break_ l1))) env st =
      some ({ st with out := st.out ++ [.blockNR, .blockNR, .br 1, .endI, .endI] }, env) ∧
    translate_rec rt (.label l1 (.break_ l1)) env st =
      some ({ st with out := st.out ++ [.blockNR, .br 0, .endI] }, env) := by
  cases l1 with
  | app a => exact absurd rfl (h1 a)
  | named n1 =>
  cases l2 with
  | app a => exact absurd rfl (h2 a)
  | named n2 =>
  have hne' : (TranslateLabel.label (NLabel.named n2)) ≠
      (TranslateLabel.label (NLabel.named n1)) := by
    intro hc
    injection hc with hc
    exact hne hc.symm
  constructor
  · simp only [translate_rec, Env.pushLabel, idxOfLabel, if_pos rfl, if_neg hne',
      Option.map_some, Option.bind_eq_bind, Option.some_bind]
    simp [emit, List.append_assoc]
  · simp only [translate_rec, Env.pushLabel, idxOfLabel, if_pos rfl,
      Option.bind_eq_bind, Option.some_bind]
    simp [emit, List.append_assoc]

/-- Witness for C3 at concrete labels `l1`, `l2`. -/
theorem break_distance_law_witness :
    translate_rec [] (.label (.named "l1") (.label (.named "l2") (.break_ (.named "l1"))))
      { labels := [], ids := [] } { out := [], locals := [], nextId := 0 } =
      some ({ out := [.blockNR, .blockNR, .br 1, .endI, .endI], locals := [], nextId := 0 },
        { labels := [], ids := [] }) ∧
    translate_rec [] (.label (.named "l1") (.break_ (.named "l1")))
      { labels := [], ids := [] } { out := [], locals := [], nextId := 0 } =
      some ({ out := [.blockNR, .br 0, .endI], locals := [], nextId := 0 },
        { labels := [], ids := [] }) := by
  have := break_distance_law [] { labels := [], ids := [] }
    { out := [], locals := [], nextId := 0 } (.named "l1") (.named "l2")
    (fun a h => by injection h) (fun a h => by injection h)
    (fun h => by injection h with h; exact absurd h (by decide))
  simpa using this

/-- Claim C10: an identifier in atom position that resolves to a top-level
function — in particular, the function listed at position `k` of the program,
resolved through the initial environment — lowers to an integer constant
carrying the function's NotWasm index `k` (its call-table index), and not the
machine function index `k + R` offset by the runtime import count. -/
theorem fun_atom_emits_notwasm_index (functions : List (NId × Func)) (k : Nat)
    (name : NId) (f : Func) (rt : RtIdx) (st st' : TState)
    (hnd : (functions.map Prod.fst).Nodup)
    (hk : functions[k]? = some (name, f))
    (h : translate_atom rt (initial_env functions) (.id name) st = some st') :
    st'.out = st.out ++ [.i32Const (u32ToI32 k)] ∧
    (k < 2 ^ 31 → u32ToI32 k = (k : Int)) ∧
    (∀ R, 0 < R → k < 2 ^ 31 → u32ToI32 k ≠ ((k + R : Nat) : Int)) := by
  have hlook := initial_env_lookup hnd hk
  simp only [translate_atom] at h
  rw [hlook] at h
  injection h with h
  have hsmall : k < 2 ^ 31 → u32ToI32 k = (k : Int) := by
    intro hs
    have hmod : k % 2 ^ 32 = k := Nat.mod_eq_of_lt (by omega)
    unfold u32ToI32
    rw [hmod, if_pos hs]
  refine ⟨?_, hsmall, ?_⟩
  · rw [← h]; simp [emit]
  · intro R hR hs
    rw [hsmall hs]
    intro hc
    have : (k : Int) < ((k + R : Nat) : Int) := by
      push_cast
      omega
    omega

/-- Witness for C10: a two-function program in which the second function's
name, read in atom position, lowers to the constant 1 (its NotWasm index),
not to `1 + R`. -/
theorem fun_atom_emits_notwasm_index_witness :
    ([(NId.named "main",
        ({ params := [], fnType := { args := [], result := some .i32 },
           body := .ret (.lit (.i32 0)) } : Func)),
      (NId.named "f",
        ({ params := [], fnType := { args := [], result := some .i32 },
           body := .ret (.lit (.i32 0)) } : Func))].map Prod.fst).Nodup ∧
    ({ out := [.i32Const (u32ToI32 1)], locals := [], nextId := 0 } : TState).out =
      ([] : List Instruction) ++ [.i32Const (u32ToI32 1)] ∧
    (1 < 2 ^ 31 → u32ToI32 1 = (1 : Int)) ∧
    (∀ R, 0 < R → 1 < 2 ^ 31 → u32ToI32 1 ≠ ((1 + R : Nat) : Int)) := by
  have hnd : ([(NId.named "main",
        ({ params := [], fnType := { args := [], result := some .i32 },
           body := .ret (.lit (.i32 0)) } : Func)),
      (NId.named "f",
        ({ params := [], fnType := { args := [], result := some .i32 },
           body := .ret (.lit (.i32 0)) } : Func))].map Prod.fst).Nodup := by
    simp [List.nodup_cons]
  refine ⟨hnd, ?_⟩
  have h := fun_atom_emits_notwasm_index
    [(NId.named "main",
        { params := [], fnType := { args := [], result := some .i32 },
          body := .ret (.lit (.i32 0)) }),
     (NId.named "f",
        { params := [], fnType := { args := [], result := some .i32 },
          body := .ret (.lit (.i32 0)) })] 1 (NId.named "f")
    { params := [], fnType := { args := [], result := some .i32 },
      body := .ret (.lit (.i32 0)) } [] { out := [], locals := [], nextId := 0 }
    { out := [.i32Const (u32ToI32 1)], locals := [], nextId := 0 }
    hnd rfl rfl
  exact h

/-- Claim C5: the translated body of the function named `main` begins with a
call to the runtime's `init` entry point, placed before every instruction of
the lowered body; the body of any other function is exactly the lowered body,
with no such prepended call. -/
theorem main_init_prepended (rt : RtIdx) (tyIdx : TyIdx) (env : Env)
    (func : Func) (name : NId) (i : Nat) (fd : FuncDef)
    (hinit : lookupA rt "init" = some i)
    (h : translate_func rt tyIdx env func name = some fd) :
    ∃ insts locals, lower_body rt env func = some (insts, locals) ∧
      (name = NId.named "main" → fd.body = Instruction.call i :: insts) ∧
      (name ≠ NId.named "main" → fd.body = insts) := by
  simp only [translate_func, Option.bind_eq_bind, Option.bind_eq_some] at h
  obtain ⟨⟨insts, locals⟩, hlow, h2⟩ := h
  refine ⟨insts, locals, hlow, ?_, ?_⟩
  · intro hmain
    rw [if_pos hmain, hinit] at h2
    simp only [Option.bind_eq_bind, Option.bind_eq_some] at h2
    obtain ⟨insts', h3, h4⟩ := h2
    injection h3 with h3
    injection h4 with h4
    rw [← h4, ← h3]
  · intro hmain
    rw [if_neg hmain] at h2
    simp only [Option.bind_eq_bind, Option.bind_eq_some] at h2
    obtain ⟨insts', h3, h4⟩ := h2
    injection h3 with h3
    injection h4 with h4
    rw [← h4, ← h3]

/-- Witness for C5: a concrete `main` whose translated body starts with
`Call init` and a concrete non-`main` function whose body does not. -/
theorem main_init_prepended_witness :
    (∃ insts locals,
      lower_body [("init", 0)] { labels := [], ids := [] }
        { params := [], fnType := { args := [], result := some .i32 },
          body := .ret (.lit (.i32 5)) } = some (insts, locals) ∧
      (NId.named "main" = NId.named "main" →
        ({ params := [], result := some .i32, locals := [],
           body := [.call 0, .i32Const 5, .ret, .endI] } : FuncDef).body =
          Instruction.call 0 :: insts) ∧
      (NId.named "main" ≠ NId.named "main" →
        ({ params := [], result := some .i32, locals := [],
           body := [.call 0, .i32Const 5, .ret, .endI] } : FuncDef).body = insts)) ∧
    (∃ insts locals,
      lower_body [("init", 0)] { labels := [], ids := [] }
        { params := [], fnType := { args := [], result := some .i32 },
          body := .ret (.lit (.i32 5)) } = some (insts, locals) ∧
      (NId.named "g" = NId.named "main" →
        ({ params := [], result := some .i32, locals := [],
           body := [.i32Const 5, .ret, .endI] } : FuncDef).body =
          Instruction.call 0 :: insts) ∧
      (NId.named "g" ≠ NId.named "main" →
        ({ params := [], result := some .i32, locals := [],
           body := [.i32Const 5, .ret, .endI] } : FuncDef).body = insts)) := by
  constructor
  · exact main_init_prepended [("init", 0)] [] { labels := [], ids := [] }
      { params := [], fnType := { args := [], result := some .i32 },
        body := .ret (.lit (.i32 5)) } (NId.named "main") 0
      { params := [], result := some .i32, locals := [],
        body := [.call 0, .i32Const 5, .ret, .endI] } rfl rfl
  · exact main_init_prepended [("init", 0)] [] { labels := [], ids := [] }
      { params := [], fnType := { args := [], result := some .i32 },
        body := .ret (.lit (.i32 5)) } (NId.named "g") 0
      { params := [], result := some .i32, locals := [],
        body := [.i32Const 5, .ret, .endI] } rfl rfl

theorem rt_call_mono_some {rt : RtIdx} {name : String} {ty : Ty} {st st' : TState}
    (h : rt_call_mono rt name ty st = some st') :
    ∃ i, lookupA rt (name ++ "_" ++ ty.tag) = some i ∧ st' = emit st (.call i) := by
  unfold rt_call_mono rt_call at h
  cases hl : lookupA rt (name ++ "_" ++ ty.tag) with
  | none => rw [hl] at h; exact absurd h (by simp)
  | some i =>
    rw [hl] at h
    injection h with h
    exact ⟨i, rfl, h.symm⟩

theorem rt_call_mono_none {rt : RtIdx} {name : String} {ty : Ty}
    (h : lookupA rt (name ++ "_" ++ ty.tag) = none) (st : TState) :
    rt_call_mono rt name ty st = none := by
  unfold rt_call_mono rt_call
  rw [h]

/-- Claim C8: each container/array operation first lowers its operands and
then calls the runtime function named by the operation's fixed prefix joined
by `_` with the element type's static tag; when that composed name is absent
from the runtime linkage table, translation of the operation fails at compile
time (returns nothing) instead of deferring a runtime fault. -/
theorem container_ops_monomorphized (rt : RtIdx) (env : Env) (ty : Ty)
    (st : TState) :
    ((∀ st', translate_expr rt env (.ht ty) st = some st' →
        ∃ i, lookupA rt ("ht_new_" ++ ty.tag) = some i ∧
          st'.out = st.out ++ [.call i]) ∧
      (lookupA rt ("ht_new_" ++ ty.tag) = none →
        translate_expr rt env (.ht ty) st = none)) ∧
    ((∀ st', translate_expr rt env (.array ty) st = some st' →
        ∃ i, lookupA rt ("array_new_" ++ ty.tag) = some i ∧
          st'.out = st.out ++ [.call i]) ∧
      (lookupA rt ("array_new_" ++ ty.tag) = none →
        translate_expr rt env (.array ty) st = none)) ∧
    ((∀ ht field val st', translate_expr rt env (.htSet ht field val ty) st = some st' →
        ∃ i ops, lookupA rt ("ht_set_" ++ ty.tag) = some i ∧
          st'.out = st.out ++ ops ++ [.call i]) ∧
      (∀ ht field val, lookupA rt ("ht_set_" ++ ty.tag) = none →
        translate_expr rt env (.htSet ht field val ty) st = none)) ∧
    ((∀ arr val st', translate_expr rt env (.push arr val ty) st = some st' →
        ∃ i ops, lookupA rt ("array_push_" ++ ty.tag) = some i ∧
          st'.out = st.out ++ ops ++ [.call i]) ∧
      (∀ arr val, lookupA rt ("array_push_" ++ ty.tag) = none →
        translate_expr rt env (.push arr val ty) st = none)) ∧
    ((∀ ht field st', translate_atom rt env (.htGet ht field ty) st = some st' →
        ∃ i ops, lookupA rt ("ht_get_" ++ ty.tag) = some i ∧
          st'.out = st.out ++ ops ++ [.call i]) ∧
      (∀ ht field, lookupA rt ("ht_get_" ++ ty.tag) = none →
        translate_atom rt env (.htGet ht field ty) st = none)) ∧
    ((∀ arr idx st', translate_atom rt env (.index arr idx ty) st = some st' →
        ∃ i ops, lookupA rt ("array_index_" ++ ty.tag) = some i ∧
          st'.out = st.out ++ ops ++ [.call i]) ∧
      (∀ arr idx, lookupA rt ("array_index_" ++ ty.tag) = none →
        translate_atom rt env (.index arr idx ty) st = none)) := by
  refine ⟨⟨?_, ?_⟩, ⟨?_, ?_⟩, ⟨?_, ?_⟩, ⟨?_, ?_⟩, ⟨?_, ?_⟩, ⟨?_, ?_⟩⟩
  · intro st' h
    simp only [translate_expr] at h
    obtain ⟨i, hi, rfl⟩ := rt_call_mono_some h
    exact ⟨i, hi, by simp [emit]⟩
  · intro hnone
    simp only [translate_expr]
    exact rt_call_mono_none hnone st
  · intro st' h
    simp only [translate_expr] at h
    obtain ⟨i, hi, rfl⟩ := rt_call_mono_some h
    exact ⟨i, hi, by simp [emit]⟩
  · intro hnone
    simp only [translate_expr]
    exact rt_call_mono_none hnone st
  · intro ht field val st' h
    simp only [translate_expr, Option.bind_eq_bind, Option.bind_eq_some] at h
    obtain ⟨s1, ha1, s2, ha2, h3⟩ := h
    obtain ⟨l1, rfl⟩ := translate_atom_frame ht ha1
    obtain ⟨l2, rfl⟩ := translate_atom_frame field ha2
    simp only [Option.bind_eq_bind, Option.bind_eq_some] at h3
    obtain ⟨s3, ha3, h4⟩ := h3
    obtain ⟨l3, rfl⟩ := translate_atom_frame val ha3
    obtain ⟨i, hi, rfl⟩ := rt_call_mono_some h4
    exact ⟨i, l1 ++ l2 ++ l3, hi, by simp [emit, List.append_assoc]⟩
  · intro ht field val hnone
    simp only [translate_expr, Option.bind_eq_bind]
    cases h1 : translate_atom rt env ht st with
    | none => rfl
    | some s1 =>
      simp only [Option.some_bind]
      cases h2 : translate_atom rt env field s1 with
      | none => rfl
      | some s2 =>
        simp only [Option.some_bind]
        cases h3 : translate_atom rt env val s2 with
        | none => rfl
        | some s3 =>
          simp only [Option.some_bind]
          exact rt_call_mono_none hnone s3
  · intro arr val st' h
    simp only [translate_expr, Option.bind_eq_bind, Option.bind_eq_some] at h
    obtain ⟨s1, ha1, s2, ha2, h3⟩ := h
    obtain ⟨l1, rfl⟩ := translate_atom_frame arr ha1
    obtain ⟨l2, rfl⟩ := translate_atom_frame val ha2
    obtain ⟨i, hi, rfl⟩ := rt_call_mono_some h3
    exact ⟨i, l1 ++ l2, hi, by simp [emit, List.append_assoc]⟩
  · intro arr val hnone
    simp only [translate_expr, Option.bind_eq_bind]
    cases h1 : translate_atom rt env arr st with
    | none => rfl
    | some s1 =>
      simp only [Option.some_bind]
      cases h2 : translate_atom rt env val s1 with
      | none => rfl
      | some s2 =>
        simp only [Option.some_bind]
        exact rt_call_mono_none hnone s2
  · intro ht field st' h
    simp only [translate_atom, Option.bind_eq_bind, Option.bind_eq_some] at h
    obtain ⟨s1, ha1, s2, ha2, h3⟩ := h
    obtain ⟨l1, rfl⟩ := translate_atom_frame ht ha1
    obtain ⟨l2, rfl⟩ := translate_atom_frame field ha2
    obtain ⟨i, hi, rfl⟩ := rt_call_mono_some h3
    exact ⟨i, l1 ++ l2, hi, by simp [emit, List.append_assoc]⟩
  · intro ht field hnone
    simp only [translate_atom, Option.bind_eq_bind]
    cases h1 : translate_atom rt env ht st with
    | none => rfl
    | some s1 =>
      simp only [Option.some_bind]
      cases h2 : translate_atom rt env field s1 with
      | none => rfl
      | some s2 =>
        simp only [Option.some_bind]
        exact rt_call_mono_none hnone s2
  · intro arr idx st' h
    simp only [translate_atom, Option.bind_eq_bind, Option.bind_eq_some] at h
    obtain ⟨s1, ha1, s2, ha2, h3⟩ := h
    obtain ⟨l1, rfl⟩ := translate_atom_frame arr ha1
    obtain ⟨l2, rfl⟩ := translate_atom_frame idx ha2
    obtain ⟨i, hi, rfl⟩ := rt_call_mono_some h3
    exact ⟨i, l1 ++ l2, hi, by simp [emit, List.append_assoc]⟩
  · intro arr idx hnone
    simp only [translate_atom, Option.bind_eq_bind]
    cases h1 : translate_atom rt env arr st with
    | none => rfl
    | some s1 =>
      simp only [Option.some_bind]
      cases h2 : translate_atom rt env idx s1 with
      | none => rfl
      | some s2 =>
        simp only [Option.some_bind]
        exact rt_call_mono_none hnone s2

/-- Witness for C8: a concrete container write dispatches to `ht_set_i32`;
with an empty linkage table the same operation fails to translate. -/
theorem container_ops_monomorphized_witness :
    (∃ i ops, lookupA [("ht_set_i32", 3)] ("ht_set_" ++ Ty.tag .i32) = some i ∧
      ({ out := [.i32Const 1, .i32Const 2, .i32Const 3, .call 3], locals := [],
         nextId := 0 } : TState).out = ([] : List Instruction) ++ ops ++ [.call i]) ∧
    translate_expr [] { labels := [], ids := [] }
      (.htSet (.lit (.i32 1)) (.lit (.i32 2)) (.lit (.i32 3)) .i32)
      { out := [], locals := [], nextId := 0 } = none := by
  constructor
  · exact (container_ops_monomorphized [("ht_set_i32", 3)] { labels := [], ids := [] }
      .i32 { out := [], locals := [], nextId := 0 }).2.2.1.1
      (.lit (.i32 1)) (.lit (.i32 2)) (.lit (.i32 3))
      { out := [.i32Const 1, .i32Const 2, .i32Const 3, .call 3], locals := [], nextId := 0 }
      rfl
  · exact (container_ops_monomorphized [] { labels := [], ids := [] }
      .i32 { out := [], locals := [], nextId := 0 }).2.2.1.2
      (.lit (.i32 1)) (.lit (.i32 2)) (.lit (.i32 3)) rfl

/-! ## Decomposition of a successful `translate_parity` run -/

theorem translate_parity_some {rts : List (String × Ty)} {p : Program}
    {m : Module} (h : translate_parity rts p = some m) :
    ∃ types imports rtIdx tyIdx funcs types' mainIdx,
      p.functions.length ≤ 2 ^ 32 ∧
      rt_import_loop rts 0 ([], [], [], []) = some (types, imports, rtIdx, tyIdx) ∧
      globals_loop (initial_env p.functions) p.globals = some () ∧
      find_main_index (p.functions.map Prod.fst) rtIdx.length = some mainIdx ∧
      push_functions rtIdx (add_user_types tyIdx (p.functions.map Prod.snd))
        (initial_env p.functions) p.functions types = some (funcs, types') ∧
      m = { types := types', funcImports := imports, memoryImport := true,
            globalImports := ["JEN_STRINGS"], dataOffsetGlobal := JEN_STRINGS_IDX,
            data := p.data, tableMin := p.functions.length % 2 ^ 32,
            table := (List.range p.functions.length).map
              (fun i => (i, (i + rtIdx.length) % 2 ^ 32)),
            funcs := funcs, exports := [("main", mainIdx)] } := by
  unfold translate_parity at h
  split at h
  case isFalse => exact absurd h (by simp)
  case isTrue hlen =>
    simp only [Option.bind_eq_bind, Option.bind_eq_some] at h
    obtain ⟨⟨types, imports, rtIdx, tyIdx⟩, h1, ⟨⟩, hg, ⟨funcs, types'⟩, hpf,
      mainIdx, hmain, h5⟩ := h
    injection h5 with h5
    exact ⟨types, imports, rtIdx, tyIdx, funcs, types', mainIdx, hlen, h1, hg,
      hmain, hpf, h5.symm⟩

theorem eraseKey_of_not_mem {κ α : Type} [DecidableEq κ] {k : κ}
    {l : List (κ × α)} (h : k ∉ l.map Prod.fst) : eraseKey k l = l := by
  induction l with
  | nil => rfl
  | cons p rest ih =>
    simp only [List.map_cons, List.mem_cons, not_or] at h
    rw [eraseKey, if_neg (fun hc => h.1 hc.symm), ih h.2]

theorem insertA_length_of_not_mem {κ α : Type} [DecidableEq κ] {k : κ} (v : α)
    {l : List (κ × α)} (h : k ∉ l.map Prod.fst) :
    (insertA k v l).length = l.length + 1 := by
  simp [insertA, eraseKey_of_not_mem h]

/-- Lengths after the runtime-import loop: with distinct, fresh runtime names
the `rt_indexes` map and the import list both grow by one entry per runtime
binding. -/
theorem rt_import_loop_lengths :
    ∀ (rts : List (String × Ty)) (funcI : Nat) (types : List WasmSig)
      (imports : List (String × Nat)) (rtIdx : RtIdx) (tyIdx : TyIdx)
      (out : List WasmSig × List (String × Nat) × RtIdx × TyIdx),
      rt_import_loop rts funcI (types, imports, rtIdx, tyIdx) = some out →
      (rts.map Prod.fst).Nodup →
      (∀ n ∈ rts.map Prod.fst, lookupA rtIdx n = none) →
      out.2.2.1.length = rtIdx.length + rts.length ∧
      out.2.1.length = imports.length + rts.length := by
  intro rts
  induction rts with
  | nil =>
    intro funcI types imports rtIdx tyIdx out h _ _
    simp only [rt_import_loop] at h
    injection h with h
    rw [← h]
    simp
  | cons q rest ih =>
    intro funcI types imports rtIdx tyIdx out h hnd hfresh
    obtain ⟨name, ty⟩ := q
    cases ty with
    | fn params retTy =>
      simp only [List.map_cons, List.nodup_cons] at hnd
      have hname : name ∉ rest.map Prod.fst := hnd.1
      have hlookname : lookupA rtIdx name = none :=
        hfresh name (by simp)
      have hfresh' : ∀ n ∈ rest.map Prod.fst,
          lookupA (insertA name funcI rtIdx) n = none := by
        intro n hn
        have hne : n ≠ name := fun hc => hname (hc ▸ hn)
        rw [lookupA_insertA_ne name n hne]
        exact hfresh n (by simp [hn])
      have hnameIdx : name ∉ rtIdx.map Prod.fst := by
        by_contra hc
        have := lookupA_isSome_of_mem hc
        rw [hlookname] at this
        exact absurd this (by simp)
      have step : ∀ (tyIdxN : TyIdx) (typesN : List WasmSig) (ic : Nat),
          rt_import_loop rest (funcI + 1)
            (typesN, imports ++ [(name, ic)], insertA name funcI rtIdx, tyIdxN) =
            some out →
          out.2.2.1.length = rtIdx.length + rest.length + 1 ∧
          out.2.1.length = imports.length + rest.length + 1 := by
        intro tyIdxN typesN ic hrec
        obtain ⟨hl1, hl2⟩ := ih _ _ _ _ _ _ hrec hnd.2 hfresh'
        constructor
        · rw [hl1, insertA_length_of_not_mem funcI hnameIdx]
          omega
        · rw [hl2]
          simp only [List.length_append, List.length_cons, List.length_nil]
          omega
      simp only [rt_import_loop, Option.bind_eq_bind, Option.bind_eq_some] at h
      obtain ⟨T, _, hrec⟩ := h
      obtain ⟨hl1, hl2⟩ := step _ _ _ hrec
      constructor
      · rw [hl1]; simp only [List.length_cons]; omega
      · rw [hl2]; simp only [List.length_cons]; omega
    | i32 => exact absurd h (by simp [rt_import_loop])
    | f64 => exact absurd h (by simp [rt_import_loop])
    | bool => exact absurd h (by simp [rt_import_loop])
    | str => exact absurd h (by simp [rt_import_loop])
    | any => exact absurd h (by simp [rt_import_loop])
    | array => exact absurd h (by simp [rt_import_loop])
    | dynObject => exact absurd h (by simp [rt_import_loop])
    | ht t => exact absurd h (by simp [rt_import_loop])

/-- Claim C2: with `R` imported runtime functions, the call table's `i`-th
entry holds machine function index `R + i`, and a lowered direct call to the
`k`-th user function (0-indexed, in program function order) emits a `Call`
instruction targeting machine index `R + k`. -/
theorem call_index_law :
    (∀ (rts : List (String × Ty)) (p : Program) (m : Module),
      (rts.map Prod.fst).Nodup →
      p.functions.length + rts.length ≤ 2 ^ 32 →
      translate_parity rts p = some m →
      m.table = (List.range p.functions.length).map
        (fun i => (i, i + rts.length)) ∧
      m.funcImports.length = rts.length) ∧
    (∀ (functions : List (NId × Func)) (rt : RtIdx) (name : NId) (fc : Func)
       (k : Nat) (args : List NId) (st st' : TState),
      (functions.map Prod.fst).Nodup →
      functions[k]? = some (name, fc) →
      k + rt.length < 2 ^ 32 →
      translate_expr rt (initial_env functions) (.callDirect name args) st =
        some st' →
      ∃ l, st'.out = st.out ++ l ++ [.call (k + rt.length)]) := by
  constructor
  · intro rts p m hnd hcap h
    obtain ⟨types, imports, rtIdx, tyIdx, funcs, types', mainIdx, hlen, h1, hg,
      hmain, hpf, hm⟩ := translate_parity_some h
    have hfresh : ∀ n ∈ rts.map Prod.fst, lookupA ([] : RtIdx) n = none := by
      intro n _; rfl
    obtain ⟨hl1, hl2⟩ := rt_import_loop_lengths rts 0 [] [] [] [] _ h1 hnd hfresh
    simp only [List.length_nil, Nat.zero_add] at hl1 hl2
    subst hm
    constructor
    · simp only
      apply List.map_congr_left
      intro i hi
      rw [List.mem_range] at hi
      have : i + rtIdx.length < 2 ^ 32 := by
        rw [hl1]; omega
      rw [Nat.mod_eq_of_lt this, hl1]
    · exact hl2
  · intro functions rt name fc k args st st' hnd hk hcap h
    have hlook := initial_env_lookup hnd hk
    simp only [translate_expr, Option.bind_eq_bind, Option.bind_eq_some] at h
    obtain ⟨s1, hargs, h2⟩ := h
    obtain ⟨l1, rfl⟩ := push_args_frame args hargs
    rw [hlook] at h2
    injection h2 with h2
    rw [← h2]
    refine ⟨l1, ?_⟩
    rw [Nat.mod_eq_of_lt hcap]
    simp [emit, List.append_assoc]

/-- The module produced for the one-function witness program of C2. -/
def moduleW1 : Module :=
  { types := [([], none), ([], some ValueType.i32)],
    funcImports := [("init", 0)], memoryImport := true,
    globalImports := ["JEN_STRINGS"], dataOffsetGlobal := JEN_STRINGS_IDX,
    data := [], tableMin := 1 % 2 ^ 32,
    table := [(0, (0 + 1) % 2 ^ 32)],
    funcs := [{ params := [], result := some ValueType.i32, locals := [],
                body := [.call 0, .i32Const 5, .ret, .endI] }],
    exports := [("main", 1)] }

/-- Witness for C2: the single-function program `main` with one runtime
binding: table entry `(0, 1)` and a direct self-call emitting `Call 1`. -/
theorem call_index_law_witness :
    (moduleW1.table = (List.range 1).map (fun i => (i, i + 1)) ∧
      moduleW1.funcImports.length = 1) ∧
    (∃ l, ({ out := [.call 1], locals := [], nextId := 0 } : TState).out =
      ([] : List Instruction) ++ l ++ [.call (0 + 1)]) := by
  constructor
  · exact call_index_law.1 [("init", .fn [] none)]
      { functions := [(NId.named "main",
          { params := [], fnType := { args := [], result := some .i32 },
            body := .ret (.lit (.i32 5)) })],
        globals := [], data := [] }
      moduleW1 (by simp) (by norm_num) rfl
  · exact call_index_law.2
      [(NId.named "main",
        { params := [], fnType := { args := [], result := some .i32 },
          body := .ret (.lit (.i32 5)) })]
      [("init", 0)] (NId.named "main")
      { params := [], fnType := { args := [], result := some .i32 },
        body := .ret (.lit (.i32 5)) } 0 [] { out := [], locals := [], nextId := 0 }
      { out := [.call 1], locals := [], nextId := 0 }
      (by simp) rfl (by norm_num) rfl

/-! ## Claim C7: missing `main` and the export section -/

/-- The number of functions named `main` in a program. -/
def count_mains (p : Program) : Nat :=
  (p.functions.filter (fun q => q.1 = NId.named "main")).length

theorem filter_key_nil_of_not_mem {α : Type} {k : NId} {l : List (NId × α)}
    (h : k ∉ l.map Prod.fst) : l.filter (fun q => q.1 = k) = [] := by
  induction l with
  | nil => rfl
  | cons p rest ih =>
    simp only [List.map_cons, List.mem_cons, not_or] at h
    rw [List.filter_cons, if_neg (by simp; exact fun hc => h.1 hc.symm)]
    exact ih h.2

theorem filter_main_le_one :
    ∀ (l : List (NId × Func)), (l.map Prod.fst).Nodup →
      (l.filter (fun q => q.1 = NId.named "main")).length ≤ 1 := by
  intro l
  induction l with
  | nil => simp
  | cons q rest ih =>
    intro hnd
    simp only [List.map_cons, List.nodup_cons] at hnd
    rw [List.filter_cons]
    by_cases hq : q.1 = NId.named "main"
    · rw [if_pos (by simp [hq])]
      have : rest.filter (fun r => r.1 = NId.named "main") = [] :=
        filter_key_nil_of_not_mem (hq ▸ hnd.1)
      simp [this]
    · rw [if_neg (by simp [hq])]
      exact ih hnd.2

theorem filter_main_pos_of_mem :
    ∀ (l : List (NId × Func)), NId.named "main" ∈ l.map Prod.fst →
      1 ≤ (l.filter (fun q => q.1 = NId.named "main")).length := by
  intro l
  induction l with
  | nil => simp
  | cons q rest ih =>
    intro hm
    simp only [List.map_cons, List.mem_cons] at hm
    rw [List.filter_cons]
    by_cases hq : q.1 = NId.named "main"
    · rw [if_pos (by simp [hq])]; simp
    · rw [if_neg (by simp [hq])]
      rcases hm with hm | hm
      · exact absurd hm.symm hq
      · exact ih hm

theorem count_mains_le_one {p : Program}
    (hnd : (p.functions.map Prod.fst).Nodup) : count_mains p ≤ 1 :=
  filter_main_le_one p.functions hnd

theorem count_mains_pos_of_mem {p : Program}
    (h : NId.named "main" ∈ p.functions.map Prod.fst) : 1 ≤ count_mains p :=
  filter_main_pos_of_mem p.functions h

/-- A successful main scan implies a function named `main` exists. -/
theorem find_main_index_mem {names : List NId} {offset idx : Nat}
    (h : find_main_index names offset = some idx) :
    NId.named "main" ∈ names := by
  unfold find_main_index at h
  suffices haux : ∀ (l : List (Nat × NId)) (acc : Option Nat),
      (l.foldl (fun acc p =>
        if p.2 = NId.named "main" then some ((p.1 + offset) % 2 ^ 32) else acc)
        acc).isSome → acc.isSome ∨ NId.named "main" ∈ l.map Prod.snd by
    have := haux names.enum none (by rw [h]; rfl)
    rcases this with hc | hc
    · exact absurd hc (by simp)
    · simpa [List.enum_map_snd] using hc
  intro l
  induction l with
  | nil => intro acc h'; exact Or.inl h'
  | cons q rest ih =>
    intro acc h'
    simp only [List.foldl_cons] at h'
    rcases ih _ h' with hc | hc
    · by_cases hq : q.2 = NId.named "main"
      · exact Or.inr (by simp [hq])
      · rw [if_neg hq] at hc
        exact Or.inl hc
    · exact Or.inr (by simp [hc])

/-- Claim C7: a program whose number of functions named `main` differs from
one fails compilation producing no module, and a successful compilation
exports exactly the single symbol `main`. -/
theorem missing_main_law (rts : List (String × Ty)) (p : Program)
    (hnd : (p.functions.map Prod.fst).Nodup) :
    (count_mains p ≠ 1 → translate_parity rts p = none) ∧
    (∀ m, translate_parity rts p = some m → ∃ i, m.exports = [("main", i)]) := by
  constructor
  · intro hne
    cases hres : translate_parity rts p with
    | none => rfl
    | some m =>
      exfalso
      obtain ⟨types, imports, rtIdx, tyIdx, funcs, types', mainIdx, _, _, _,
        hmain, _, _⟩ := translate_parity_some hres
      have hmem := find_main_index_mem hmain
      have h1 := count_mains_pos_of_mem hmem
      have h2 := count_mains_le_one hnd
      omega
  · intro m hres
    obtain ⟨types, imports, rtIdx, tyIdx, funcs, types', mainIdx, _, _, _, _,
      _, hm⟩ := translate_parity_some hres
    exact ⟨mainIdx, by rw [hm]⟩

/-- Witness for C7: a program whose only function is `f` (no `main`) fails;
the standard one-function `main` program exports exactly `main`. -/
theorem missing_main_law_witness :
    (count_mains { functions := [(NId.named "f",
        { params := [], fnType := { args := [], result := some .i32 },
          body := .ret (.lit (.i32 5)) })], globals := [], data := [] } ≠ 1 →
      translate_parity [("init", .fn [] none)]
        { functions := [(NId.named "f",
            { params := [], fnType := { args := [], result := some .i32 },
              body := .ret (.lit (.i32 5)) })], globals := [], data := [] } = none) ∧
    (∀ m, translate_parity [("init", .fn [] none)]
        { functions := [(NId.named "f",
            { params := [], fnType := { args := [], result := some .i32 },
              body := .ret (.lit (.i32 5)) })], globals := [], data := [] } = some m →
      ∃ i, m.exports = [("main", i)]) := by
  exact missing_main_law [("init", .fn [] none)]
    { functions := [(NId.named "f",
        { params := [], fnType := { args := [], result := some .i32 },
          body := .ret (.lit (.i32 5)) })], globals := [], data := [] }
    (by simp)

/-! ## Claim C6: type-section deduplication -/

theorem lookupA_append_right {κ α : Type} [DecidableEq κ] {l : List (κ × α)}
    {k : κ} (h : lookupA l k = none) (l' : List (κ × α)) :
    lookupA (l ++ l') k = lookupA l' k := by
  induction l with
  | nil => rfl
  | cons p rest ih =>
    rw [lookupA] at h
    by_cases hp : p.1 = k
    · rw [if_pos hp] at h; exact absurd h (by simp)
    · rw [if_neg hp] at h
      rw [List.cons_append, lookupA, if_neg hp]
      exact ih h

theorem firstIdx_append_left {A : Type} [DecidableEq A] {l : List A} {x : A}
    {i : Nat} (h : firstIdx l x = some i) (l' : List A) :
    firstIdx (l ++ l') x = some i := by
  induction l generalizing i with
  | nil => exact absurd h (by simp [firstIdx])
  | cons a rest ih =>
    rw [firstIdx] at h
    by_cases ha : a = x
    · rw [if_pos ha] at h
      rw [List.cons_append, firstIdx, if_pos ha]
      exact h
    · rw [if_neg ha] at h
      rw [List.cons_append, firstIdx, if_neg ha]
      cases hf : firstIdx rest x with
      | none => rw [hf] at h; exact absurd h (by simp)
      | some j =>
        rw [hf] at h
        rw [ih hf]
        exact h

theorem firstIdx_append_singleton {A : Type} [DecidableEq A] {l : List A}
    {x : A} (h : firstIdx l x = none) (y : A) :
    firstIdx (l ++ [y]) x = if y = x then some l.length else none := by
  induction l with
  | nil => simp [firstIdx]
  | cons a rest ih =>
    rw [firstIdx] at h
    by_cases ha : a = x
    · rw [if_pos ha] at h; exact absurd h (by simp)
    · rw [if_neg ha] at h
      cases hf : firstIdx rest x with
      | none =>
        rw [List.cons_append, firstIdx, if_neg ha, ih hf]
        by_cases hy : y = x
        · simp [hy]
        · simp [hy]
      | some j => rw [hf] at h; exact absurd h (by simp)

/-- The invariant tying `type_indexes` to the module's type section during
the runtime-import loop: the map sends a signature to the index of its first
occurrence in the type section, its values enumerate `0, 1, …`, its keys are
distinct and it has one entry per type-section entry. -/
def tyIdx_mirrors (types : List WasmSig) (tyIdx : TyIdx) : Prop :=
  (∀ sig, lookupA tyIdx sig = firstIdx types sig) ∧
  tyIdx.map Prod.snd = List.range tyIdx.length ∧
  (tyIdx.map Prod.fst).Nodup ∧
  tyIdx.length = types.length

theorem rt_import_loop_mirrors :
    ∀ (rts : List (String × Ty)) (funcI : Nat) (types : List WasmSig)
      (imports : List (String × Nat)) (rtIdx : RtIdx) (tyIdx : TyIdx)
      (out : List WasmSig × List (String × Nat) × RtIdx × TyIdx),
      rt_import_loop rts funcI (types, imports, rtIdx, tyIdx) = some out →
      tyIdx_mirrors types tyIdx →
      tyIdx_mirrors out.1 out.2.2.2 := by
  intro rts
  induction rts with
  | nil =>
    intro funcI types imports rtIdx tyIdx out h hm
    simp only [rt_import_loop] at h
    injection h with h
    rw [← h]
    exact hm
  | cons q rest ih =>
    intro funcI types imports rtIdx tyIdx out h hm
    obtain ⟨name, ty⟩ := q
    cases ty with
    | fn params retTy =>
      simp only [rt_import_loop, Option.bind_eq_bind, Option.bind_eq_some] at h
      obtain ⟨T, hchk, hrec⟩ := h
      obtain ⟨hlook, hsnd, hfst, hlen⟩ := hm
      cases hfi : firstIdx types (types_as_wasm params, option_as_wasm retTy) with
      | some i =>
        have hps : push_signature types (types_as_wasm params, option_as_wasm retTy) =
            (types, i) := by
          simp [push_signature, hfi]
        rw [hps] at hchk hrec
        dsimp only at hchk hrec
        unfold tyIdx_entry_check at hchk
        rw [hlook, hfi] at hchk
        dsimp only at hchk
        rw [if_pos rfl] at hchk
        injection hchk with hchk
        rw [← hchk] at hrec
        exact ih _ _ _ _ _ _ hrec ⟨hlook, hsnd, hfst, hlen⟩
      | none =>
        have hps : push_signature types (types_as_wasm params, option_as_wasm retTy) =
            (types ++ [(types_as_wasm params, option_as_wasm retTy)], types.length) := by
          simp [push_signature, hfi]
        rw [hps] at hchk hrec
        dsimp only at hchk hrec
        unfold tyIdx_entry_check at hchk
        rw [hlook, hfi] at hchk
        dsimp only at hchk
        injection hchk with hchk
        rw [← hchk] at hrec
        refine ih _ _ _ _ _ _ hrec ⟨?_, ?_, ?_, ?_⟩
        · intro sig
          cases hs : lookupA tyIdx sig with
          | some j =>
            rw [lookupA_append_left hs]
            have : firstIdx types sig = some j := by rw [← hlook]; exact hs
            exact (firstIdx_append_left this _).symm
          | none =>
            rw [lookupA_append_right hs]
            have hnone : firstIdx types sig = none := by rw [← hlook]; exact hs
            rw [firstIdx_append_singleton hnone]
            by_cases he : (types_as_wasm params, option_as_wasm retTy) = sig
            · rw [if_pos he]
              simp [lookupA, he]
            · rw [if_neg he]
              simp [lookupA, he]
        · rw [List.map_append, hsnd, List.length_append]
          simp [hlen, List.range_succ]
        · rw [List.map_append]
          have hnotin : (types_as_wasm params, option_as_wasm retTy) ∉
              tyIdx.map Prod.fst := by
            by_contra hc
            have := lookupA_isSome_of_mem hc
            rw [hlook, hfi] at this
            exact absurd this (by simp)
          simp [List.nodup_append, hfst, hnotin]
        · simp [hlen]
    | i32 => exact absurd h (by simp [rt_import_loop])
    | f64 => exact absurd h (by simp [rt_import_loop])
    | bool => exact absurd h (by simp [rt_import_loop])
    | str => exact absurd h (by simp [rt_import_loop])
    | any => exact absurd h (by simp [rt_import_loop])
    | array => exact absurd h (by simp [rt_import_loop])
    | dynObject => exact absurd h (by simp [rt_import_loop])
    | ht t => exact absurd h (by simp [rt_import_loop])

/-- Well-formedness of a deduplication table: values enumerate `0, 1, …` and
keys are distinct. -/
def tyIdx_wf (t : TyIdx) : Prop :=
  t.map Prod.snd = List.range t.length ∧ (t.map Prod.fst).Nodup

theorem add_user_types_preserve :
    ∀ (funcs : List Func) (t : TyIdx) (sig : WasmSig) (i : Nat),
      lookupA t sig = some i → lookupA (add_user_types t funcs) sig = some i := by
  intro funcs
  induction funcs with
  | nil => intro t sig i h; exact h
  | cons g rest ih =>
    intro t sig i h
    rw [add_user_types]
    cases hg : lookupA t (funcSig g) with
    | some j => exact ih _ _ _ h
    | none => exact ih _ _ _ (lookupA_append_left h _)

theorem add_user_types_wf :
    ∀ (funcs : List Func) (t : TyIdx), tyIdx_wf t →
      tyIdx_wf (add_user_types t funcs) := by
  intro funcs
  induction funcs with
  | nil => intro t h; exact h
  | cons g rest ih =>
    intro t h
    rw [add_user_types]
    cases hg : lookupA t (funcSig g) with
    | some j => exact ih _ h
    | none =>
      refine ih _ ⟨?_, ?_⟩
      · rw [List.map_append, h.1, List.length_append]
        simp [List.range_succ]
      · rw [List.map_append]
        have hnotin : funcSig g ∉ t.map Prod.fst := by
          by_contra hc
          have := lookupA_isSome_of_mem hc
          rw [hg] at this
          exact absurd this (by simp)
        simp [List.nodup_append, h.2, hnotin]

theorem add_user_types_covers :
    ∀ (funcs : List Func) (t : TyIdx) (f : Func), f ∈ funcs →
      (lookupA (add_user_types t funcs) (funcSig f)).isSome := by
  intro funcs
  induction funcs with
  | nil => intro t f h; simp at h
  | cons g rest ih =>
    intro t f hf
    rw [add_user_types]
    rcases List.mem_cons.mp hf with hf | hf
    · subst hf
      cases hg : lookupA t (funcSig f) with
      | some j => rw [add_user_types_preserve rest _ _ _ hg]; rfl
      | none =>
        have hself : lookupA (t ++ [(funcSig f, t.length)]) (funcSig f) =
            some t.length := by
          rw [lookupA_append_right hg]
          simp [lookupA]
        rw [add_user_types_preserve rest _ _ _ hself]
        rfl
    · cases hg : lookupA t (funcSig g) with
      | some j => exact ih _ _ hf
      | none => exact ih _ _ hf

theorem snd_nodup_inj {κ α : Type} {l : List (κ × α)}
    (hnd : (l.map Prod.snd).Nodup) {k1 k2 : κ} {v : α}
    (h1 : (k1, v) ∈ l) (h2 : (k2, v) ∈ l) : k1 = k2 := by
  induction l with
  | nil => simp at h1
  | cons p rest ih =>
    simp only [List.map_cons, List.nodup_cons] at hnd
    rcases List.mem_cons.mp h1 with e1 | m1 <;>
      rcases List.mem_cons.mp h2 with e2 | m2
    · have a1 : k1 = p.1 := congrArg Prod.fst e1
      have a2 : k2 = p.1 := congrArg Prod.fst e2
      rw [a1, a2]
    · exfalso
      apply hnd.1
      have hv : v = p.2 := congrArg Prod.snd e1
      exact hv ▸ List.mem_map_of_mem Prod.snd m2
    · exfalso
      apply hnd.1
      have hv : v = p.2 := congrArg Prod.snd e2
      exact hv ▸ List.mem_map_of_mem Prod.snd m1
    · exact ih hnd.2 m1 m2

/-- Claim C6: after registering user-function signatures on top of the
runtime imports' deduplication table, every user function's (mapped) wasm
signature is assigned a type-section index; entries made for the runtime
bindings are kept unchanged (the same table is continued); and distinct
signatures are assigned distinct indices — so two user functions with the
same (parameter types, return type) signature share one type-section index. -/
theorem type_dedup_law (rts : List (String × Ty)) (types : List WasmSig)
    (imports : List (String × Nat)) (rtIdx : RtIdx) (tyIdx : TyIdx)
    (funcs : List Func)
    (h : rt_import_loop rts 0 ([], [], [], []) = some (types, imports, rtIdx, tyIdx)) :
    (∀ f, f ∈ funcs → (lookupA (add_user_types tyIdx funcs) (funcSig f)).isSome) ∧
    (∀ sig i, lookupA tyIdx sig = some i →
      lookupA (add_user_types tyIdx funcs) sig = some i) ∧
    (∀ sig sig' i i', lookupA (add_user_types tyIdx funcs) sig = some i →
      lookupA (add_user_types tyIdx funcs) sig' = some i' →
      sig ≠ sig' → i ≠ i') := by
  have hmir := rt_import_loop_mirrors rts 0 [] [] [] [] _ h
    ⟨fun sig => rfl, rfl, List.nodup_nil, rfl⟩
  obtain ⟨_, hsnd, hfst, _⟩ := hmir
  have hwf : tyIdx_wf (add_user_types tyIdx funcs) :=
    add_user_types_wf funcs tyIdx ⟨hsnd, hfst⟩
  refine ⟨fun f hf => add_user_types_covers funcs tyIdx f hf,
    fun sig i hs => add_user_types_preserve funcs tyIdx sig i hs,
    ?_⟩
  intro sig sig' i i' hs hs' hne heq
  subst heq
  have hm1 := lookupA_mem hs
  have hm2 := lookupA_mem hs'
  have hvals : ((add_user_types tyIdx funcs).map Prod.snd).Nodup := by
    rw [hwf.1]
    exact List.nodup_range _
  exact hne (snd_nodup_inj hvals hm1 hm2)

/-- A user function of signature `() -> i32` returning `n`, for witnesses. -/
def retFn (n : Int) : Func :=
  { params := [], fnType := { args := [], result := some .i32 },
    body := .ret (.lit (.i32 n)) }

/-- Witness for C6: two user functions with the identical signature
`() -> i32` on top of the single-`init` runtime table. -/
theorem type_dedup_law_witness :
    (∀ f, f ∈ [retFn 1, retFn 2] →
      (lookupA (add_user_types [(([], none), 0)] [retFn 1, retFn 2])
        (funcSig f)).isSome) ∧
    (∀ sig i, lookupA [(([], none), 0)] sig = some i →
      lookupA (add_user_types [(([], none), 0)] [retFn 1, retFn 2]) sig = some i) ∧
    (∀ sig sig' i i',
      lookupA (add_user_types [(([], none), 0)] [retFn 1, retFn 2]) sig = some i →
      lookupA (add_user_types [(([], none), 0)] [retFn 1, retFn 2]) sig' = some i' →
      sig ≠ sig' → i ≠ i') :=
  type_dedup_law [("init", .fn [] none)] [([], none)] [("init", 0)]
    [("init", 0)] [(([], none), 0)] [retFn 1, retFn 2] rfl

/-! ## Claim C1: the hypotheses of the compilation-succeeds property

The claim quantifies over closed, interned, goto-free, well-typed programs
with a unique zero-argument `main`.  Those side conditions are defined here as
executable checkers over the program syntax. -/

mutual

/-- Structural equality of NotWasm types (used by the modelled type
checker). -/
def Ty.beq : Ty → Ty → Bool
  | .i32, .i32 => true
  | .f64, .f64 => true
  | .bool, .bool => true
  | .str, .str => true
  | .any, .any => true
  | .array, .array => true
  | .dynObject, .dynObject => true
  | .ht a, .ht b => Ty.beq a b
  | .fn args r, .fn args' r' => Ty.beqList args args' && Ty.beqOpt r r'
  | _, _ => false

def Ty.beqList : List Ty → List Ty → Bool
  | [], [] => true
  | a :: as, b :: bs => Ty.beq a b && Ty.beqList as bs
  | _, _ => false

def Ty.beqOpt : Option Ty → Option Ty → Bool
  | none, none => true
  | some a, some b => Ty.beq a b
  | _, _ => false

end

/-- Modelled from the spec: the literal typing of the NotWasm type checker
(`notwasm/type_checking.rs` is not under `src/`): interned literals are
string offsets. -/
def synthLit : Lit → Option Ty
  | .i32 _ => some .i32
  | .f64 => some .f64
  | .string _ => some .str
  | .interned _ => some .str
  | .bool _ => some .bool

/-- Modelled from the spec: atom typing relative to the function-type table
and the local context. -/
def synthAtom (fns : List (NId × FnType)) (Γ : List (NId × Ty)) :
    Atom → Option Ty
  | .lit l => synthLit l
  | .id x =>
    match lookupA Γ x with
    | some t => some t
    | none =>
      match lookupA fns x with
      | some ft => some (.fn ft.args ft.result)
      | none => none
  | .htGet h f ty => do
    let th ← synthAtom fns Γ h
    let tf ← synthAtom fns Γ f
    if Ty.beq th (.ht ty) && Ty.beq tf .str then some ty else none
  | .index a i ty => do
    let ta ← synthAtom fns Γ a
    let ti ← synthAtom fns Γ i
    if Ty.beq ta .array && Ty.beq ti .i32 then some ty else none
  | .stringLen s => do
    let ts ← synthAtom fns Γ s
    if Ty.beq ts .str then some .i32 else none
  | .binary op a b => do
    let ta ← synthAtom fns Γ a
    let tb ← synthAtom fns Γ b
    if Ty.beq ta .i32 && Ty.beq tb .i32 then
      match op with
      | .i32Eq | .i32GT | .i32Ge | .i32Le => some .bool
      | _ => some .i32
    else none

/-- Modelled from the spec: typing of the local identifiers passed as direct
call arguments. -/
def synthArgs (Γ : List (NId × Ty)) : List NId → Option (List Ty)
  | [] => some []
  | x :: rest => do
    let t ← lookupA Γ x
    let ts ← synthArgs Γ rest
    some (t :: ts)

/-- Modelled from the spec: expression typing. -/
def synthExpr (fns : List (NId × FnType)) (Γ : List (NId × Ty)) :
    Expr → Option Ty
  | .atom a => synthAtom fns Γ a
  | .ht ty => some (.ht ty)
  | .array _ => some .array
  | .htSet h f v ty => do
    let th ← synthAtom fns Γ h
    let tf ← synthAtom fns Γ f
    let tv ← synthAtom fns Γ v
    if Ty.beq th (.ht ty) && Ty.beq tf .str && Ty.beq tv ty then some ty else none
  | .push a v ty => do
    let ta ← synthAtom fns Γ a
    let tv ← synthAtom fns Γ v
    if Ty.beq ta .array && Ty.beq tv ty then some ty else none
  | .callDirect f args => do
    let ft ← lookupA fns f
    let ts ← synthArgs Γ args
    match ft.result with
    | some t => if Ty.beqList ts ft.args then some t else none
    | none => none
  | .callIndirect f ft args => do
    let tf ← lookupA Γ f
    let ts ← synthArgs Γ args
    match ft.result with
    | some t =>
      if Ty.beq tf (.fn ft.args ft.result) && Ty.beqList ts ft.args then
        some t
      else none
    | none => none
  | .toString a => do
    let ta ← synthAtom fns Γ a
    if Ty.beq ta .str then some .str else none

mutual

/-- Modelled from the spec: statement checking against the declared result
type `ρ`, threading the local context through declarations. -/
def stmtChk (fns : List (NId × FnType)) (ρ : Option Ty)
    (Γ : List (NId × Ty)) : Stmt → Option (List (NId × Ty))
  | .empty => some Γ
  | .block ss => (stmtChkList fns ρ Γ ss).map (fun _ => Γ)
  | .var x e ty => do
    let t ← synthExpr fns Γ e
    if Ty.beq t ty then some (insertA x ty Γ) else none
  | .assign x e => do
    let t ← synthExpr fns Γ e
    let tx ← lookupA Γ x
    if Ty.beq t tx then some Γ else none
  | .ite c a b => do
    let tc ← synthAtom fns Γ c
    if Ty.beq tc .bool then do
      let _ ← stmtChk fns ρ Γ a
      let _ ← stmtChk fns ρ Γ b
      some Γ
    else none
  | .loop b => (stmtChk fns ρ Γ b).map (fun _ => Γ)
  | .label _ s => (stmtChk fns ρ Γ s).map (fun _ => Γ)
  | .break_ _ => some Γ
  | .ret a => do
    let t ← synthAtom fns Γ a
    match ρ with
    | some tr => if Ty.beq t tr then some Γ else none
    | none => none
  | .trap => some Γ
  | .goto _ => some Γ

def stmtChkList (fns : List (NId × FnType)) (ρ : Option Ty)
    (Γ : List (NId × Ty)) : List Stmt → Option (List (NId × Ty))
  | [] => some Γ
  | s :: rest => do
    let Γ' ← stmtChk fns ρ Γ s
    stmtChkList fns ρ Γ' rest

end

/-- The parameter typing context of a function. -/
def paramsCtx : List (NId × Ty) → List (NId × Ty)
  | [] => []
  | (x, t) :: rest => insertA x t (paramsCtx rest)

/-- Modelled from the spec: a program is well-typed when every function body
checks against its declared result type in the context of its parameters and
the function-type table, and every global initializer has a type. -/
def wellTypedProgram (p : Program) : Bool :=
  let fns := p.functions.map (fun q => (q.1, q.2.fnType))
  p.functions.all (fun q =>
    (stmtChk fns q.2.fnType.result
      (paramsCtx (q.2.params.zip q.2.fnType.args)) q.2.body).isSome) &&
  p.globals.all (fun q => (synthAtom fns [] q.2).isSome)

/-! ### Closed identifiers (the scope checker) -/

/-- What an identifier is bound to in the scope checker: a local or a
top-level function. -/
inductive BKind where
  | loc : BKind
  | fnk : BKind
deriving DecidableEq

/-- The binding summary of an `IdIndex`. -/
def kindOf : IdIndex → BKind
  | .Local _ _ => .loc
  | .Fun _ => .fnk

/-- Scope context: the key-to-kind image of the environment's `ids` map. -/
abbrev Ctx := List (NId × BKind)

def atomScope (Γ : Ctx) : Atom → Bool
  | .lit _ => true
  | .id x => (lookupA Γ x).isSome
  | .htGet h f _ => atomScope Γ h && atomScope Γ f
  | .index a i _ => atomScope Γ a && atomScope Γ i
  | .stringLen s => atomScope Γ s
  | .binary _ a b => atomScope Γ a && atomScope Γ b

/-- A direct-call argument must be a bound local. -/
def isLocArg (Γ : Ctx) (x : NId) : Bool :=
  match lookupA Γ x with
  | some .loc => true
  | _ => false

/-- A direct-call callee must be a bound top-level function. -/
def isFunId (Γ : Ctx) (x : NId) : Bool :=
  match lookupA Γ x with
  | some .fnk => true
  | _ => false

def exprScope (Γ : Ctx) : Expr → Bool
  | .atom a => atomScope Γ a
  | .ht _ => true
  | .array _ => true
  | .htSet h f v _ => atomScope Γ h && atomScope Γ f && atomScope Γ v
  | .push a v _ => atomScope Γ a && atomScope Γ v
  | .callDirect f args => isFunId Γ f && args.all (fun a => isLocArg Γ a)
  | .callIndirect _ _ _ => true
  | .toString a => atomScope Γ a

mutual

/-- The scope checker: closed identifier references, scope-correct
assignments and calls, and breaks bound to an enclosing label, mirroring the
label/identifier discipline of `translate_rec`. -/
def stmtScope (Γ : Ctx) (Λ : List TranslateLabel) : Stmt → Option Ctx
  | .empty => some Γ
  | .block ss => (stmtScopeList Γ Λ ss).map (fun _ => Γ)
  | .var x e _ =>
    if exprScope Γ e then some (insertA x .loc Γ) else none
  | .assign x e =>
    if exprScope Γ e && isLocArg Γ x then some Γ else none
  | .ite c a b =>
    if atomScope Γ c then do
      let _ ← stmtScope Γ (.unused :: Λ) a
      let _ ← stmtScope Γ (.unused :: Λ) b
      some Γ
    else none
  | .loop b => (stmtScope Γ (.unused :: Λ) b).map (fun _ => Γ)
  | .label l s => (stmtScope Γ (.label l :: Λ) s).map (fun _ => Γ)
  | .break_ l =>
    if (idxOfLabel Λ (.label l)).isSome then some Γ else none
  | .ret a => if atomScope Γ a then some Γ else none
  | .trap => some Γ
  | .goto _ => some Γ

def stmtScopeList (Γ : Ctx) (Λ : List TranslateLabel) :
    List Stmt → Option Ctx
  | [] => some Γ
  | s :: rest => do
    let Γ' ← stmtScope Γ Λ s
    stmtScopeList Γ' Λ rest

end

/-- The scope context of the parameter bindings (mirrors `bind_params`). -/
def bindParamsCtx (Γ : Ctx) : List (NId × Ty) → Ctx
  | [] => Γ
  | (x, _) :: rest => bindParamsCtx (insertA x .loc Γ) rest

/-- The scope context of the top-level function names (mirrors
`initial_env_loop`). -/
def initial_ctx_loop : List (NId × Func) → Ctx → Ctx
  | [], Γ => Γ
  | (name, _) :: rest, Γ => initial_ctx_loop rest (insertA name .fnk Γ)

def initial_ctx (functions : List (NId × Func)) : Ctx :=
  initial_ctx_loop functions []

/-- Closed identifiers: every function body passes the scope checker under
its parameters and the function names, and every global initializer only
references bound identifiers. -/
def closedProgram (p : Program) : Bool :=
  p.functions.all (fun q =>
    (stmtScope (bindParamsCtx (initial_ctx p.functions)
      (q.2.params.zip q.2.fnType.args)) [] q.2.body).isSome) &&
  p.globals.all (fun q => atomScope (initial_ctx p.functions) q.2)

/-! ### Interned and goto-free programs -/

def internedAtom : Atom → Bool
  | .lit l => match l with | .string _ => false | _ => true
  | .id _ => true
  | .htGet h f _ => internedAtom h && internedAtom f
  | .index a i _ => internedAtom a && internedAtom i
  | .stringLen s => internedAtom s
  | .binary _ a b => internedAtom a && internedAtom b

def internedExpr : Expr → Bool
  | .atom a => internedAtom a
  | .ht _ => true
  | .array _ => true
  | .htSet h f v _ => internedAtom h && internedAtom f && internedAtom v
  | .push a v _ => internedAtom a && internedAtom v
  | .callDirect _ _ => true
  | .callIndirect _ _ _ => true
  | .toString a => internedAtom a

mutual

def internedStmt : Stmt → Bool
  | .empty => true
  | .block ss => internedStmtList ss
  | .var _ e _ => internedExpr e
  | .assign _ e => internedExpr e
  | .ite c a b => internedAtom c && internedStmt a && internedStmt b
  | .loop b => internedStmt b
  | .label _ s => internedStmt s
  | .break_ _ => true
  | .ret a => internedAtom a
  | .trap => true
  | .goto _ => true

def internedStmtList : List Stmt → Bool
  | [] => true
  | s :: rest => internedStmt s && internedStmtList rest

end

/-- An interned program: no raw string literal survives anywhere. -/
def internedProgram (p : Program) : Bool :=
  p.functions.all (fun q => internedStmt q.2.body) &&
  p.globals.all (fun q => internedAtom q.2)

mutual

/-- Goto-freeness: no `Goto` statement and no `Label::App` placeholder. -/
def gotoFreeStmt : Stmt → Bool
  | .empty => true
  | .block ss => gotoFreeStmtList ss
  | .var _ _ _ => true
  | .assign _ _ => true
  | .ite _ a b => gotoFreeStmt a && gotoFreeStmt b
  | .loop b => gotoFreeStmt b
  | .label l s =>
    (match l with | .app _ => false | _ => true) && gotoFreeStmt s
  | .break_ _ => true
  | .ret _ => true
  | .trap => true
  | .goto _ => false

def gotoFreeStmtList : List Stmt → Bool
  | [] => true
  | s :: rest => gotoFreeStmt s && gotoFreeStmtList rest

end

def gotoFreeProgram (p : Program) : Bool :=
  p.functions.all (fun q => gotoFreeStmt q.2.body)

/-- A unique, zero-argument `main` (the program invariant of §3). -/
def uniqueZeroArgMain (p : Program) : Bool :=
  (count_mains p = 1 : Bool) &&
  p.functions.all (fun q =>
    !(q.1 = NId.named "main" : Bool) ||
      (q.2.params.isEmpty && q.2.fnType.args.isEmpty))

/-! ### The conditions the counterexample to C1 forces (see
`translation_succeeds_counterexample`): no indirect calls, no floating-point
literals, and all referenced monomorphized runtime names present. -/

/-- Membership of a name in a name list. -/
def hasStr : List String → String → Bool
  | [], _ => false
  | s :: rest, n => if s = n then true else hasStr rest n

def atomLower (R : List String) : Atom → Bool
  | .lit l => match l with | .f64 => false | _ => true
  | .id _ => true
  | .htGet h f ty =>
    hasStr R ("ht_get" ++ "_" ++ ty.tag) && atomLower R h && atomLower R f
  | .index a i ty =>
    hasStr R ("array_index" ++ "_" ++ ty.tag) && atomLower R a && atomLower R i
  | .stringLen s => hasStr R "string_len" && atomLower R s
  | .binary _ a b => atomLower R a && atomLower R b

def exprLower (R : List String) : Expr → Bool
  | .atom a => atomLower R a
  | .ht ty => hasStr R ("ht_new" ++ "_" ++ ty.tag)
  | .array ty => hasStr R ("array_new" ++ "_" ++ ty.tag)
  | .htSet h f v ty =>
    hasStr R ("ht_set" ++ "_" ++ ty.tag) && atomLower R h && atomLower R f &&
      atomLower R v
  | .push a v ty =>
    hasStr R ("array_push" ++ "_" ++ ty.tag) && atomLower R a && atomLower R v
  | .callDirect _ _ => true
  | .callIndirect _ _ _ => false
  | .toString a => hasStr R "string_from_str" && atomLower R a

mutual

def stmtLower (R : List String) : Stmt → Bool
  | .empty => true
  | .block ss => stmtLowerList R ss
  | .var _ e _ => exprLower R e
  | .assign _ e => exprLower R e
  | .ite c a b => atomLower R c && stmtLower R a && stmtLower R b
  | .loop b => stmtLower R b
  | .label _ s => stmtLower R s
  | .break_ _ => true
  | .ret a => atomLower R a
  | .trap => true
  | .goto _ => true

def stmtLowerList (R : List String) : List Stmt → Bool
  | [] => true
  | s :: rest => stmtLower R s && stmtLowerList R rest

end

/-- The amendment's extra conditions on a program, relative to the runtime
names `R`: function bodies contain no indirect call and no floating-point
literal and reference only linked runtime names; global initializers are
runtime-free (they are translated against empty linkage maps). -/
def lowerProgram (R : List String) (p : Program) : Bool :=
  p.functions.all (fun q => stmtLower R q.2.body) &&
  p.globals.all (fun q => atomLower [] q.2)

theorem lookupA_isSome_of_hasStr {rt : RtIdx} {n : String}
    (h : hasStr (rt.map Prod.fst) n = true) : (lookupA rt n).isSome := by
  induction rt with
  | nil => simp [hasStr] at h
  | cons p rest ih =>
    rw [List.map_cons, hasStr] at h
    by_cases hp : p.1 = n
    · simp [lookupA, hp]
    · rw [if_neg hp] at h
      simpa [lookupA, hp] using ih h

/-! ### Totality of translation under the checkers -/

/-- The scope context is the kind image of the environment's `ids` map. -/
def envMatches (env : Env) (Γ : Ctx) : Prop :=
  Γ = env.ids.map (fun p => (p.1, kindOf p.2))

theorem lookup_matches {env : Env} {Γ : Ctx} (hm : envMatches env Γ)
    (x : NId) : lookupA Γ x = (lookupA env.ids x).map kindOf := by
  rw [hm]
  induction env.ids with
  | nil => rfl
  | cons p rest ih =>
    rw [List.map_cons, lookupA, lookupA]
    by_cases hp : p.1 = x
    · rw [if_pos hp, if_pos hp]
      rfl
    · rw [if_neg hp, if_neg hp]
      exact ih

theorem eraseKey_map_kind (k : NId) (l : List (NId × IdIndex)) :
    eraseKey k (l.map (fun p => (p.1, kindOf p.2))) =
      (eraseKey k l).map (fun p => (p.1, kindOf p.2)) := by
  induction l with
  | nil => rfl
  | cons p rest ih =>
    rw [List.map_cons, eraseKey, eraseKey]
    by_cases hp : p.1 = k
    · rw [if_pos hp, if_pos hp]
      exact ih
    · rw [if_neg hp, if_neg hp, List.map_cons, ih]

theorem insert_matches {env : Env} {Γ : Ctx} (hm : envMatches env Γ)
    (x : NId) (v : IdIndex) :
    envMatches (env.insertId x v) (insertA x (kindOf v) Γ) := by
  unfold envMatches at hm ⊢
  subst hm
  simp only [Env.insertId, insertA, List.map_cons]
  rw [eraseKey_map_kind]

theorem rt_call_total {rt : RtIdx} {name : String}
    (h : (lookupA rt name).isSome) (st : TState) :
    ∃ st', rt_call rt name st = some st' := by
  unfold rt_call
  cases hl : lookupA rt name with
  | none => rw [hl] at h; exact absurd h (by simp)
  | some i => exact ⟨_, rfl⟩

theorem rt_call_mono_total {rt : RtIdx} (name : String) {ty : Ty}
    (h : (lookupA rt (name ++ "_" ++ ty.tag)).isSome) (st : TState) :
    ∃ st', rt_call_mono rt name ty st = some st' :=
  rt_call_total h st

theorem translate_atom_total {rt : RtIdx} {env : Env} {Γ : Ctx}
    {R : List String} (hR : ∀ n, hasStr R n = true → (lookupA rt n).isSome)
    (hm : envMatches env Γ) :
    ∀ (a : Atom) (st : TState),
      atomScope Γ a = true → internedAtom a = true →
      atomLower R a = true →
      ∃ st', translate_atom rt env a st = some st' := by
  intro a
  induction a with
  | lit l =>
    intro st _ hint hlow
    cases l with
    | i32 n => exact ⟨_, rfl⟩
    | f64 => exact absurd hlow (by simp [atomLower])
    | string s => exact absurd hint (by simp [internedAtom])
    | interned addr => exact ⟨_, rfl⟩
    | bool b => exact ⟨_, rfl⟩
  | id x =>
    intro st hsc _ _
    rw [atomScope, lookup_matches hm] at hsc
    cases hl : lookupA env.ids x with
    | none => rw [hl] at hsc; exact absurd hsc (by simp)
    | some v =>
      cases v with
      | Local n t => exact ⟨emit st (.getLocal n), by simp [translate_atom, hl]⟩
      | Fun n =>
        exact ⟨emit st (.i32Const (u32ToI32 n)), by simp [translate_atom, hl]⟩
  | htGet h f ty ih1 ih2 =>
    intro st hsc hint hlow
    rw [atomScope, Bool.and_eq_true] at hsc
    rw [internedAtom, Bool.and_eq_true] at hint
    rw [atomLower, Bool.and_eq_true, Bool.and_eq_true] at hlow
    obtain ⟨st1, h1⟩ := ih1 st hsc.1 hint.1 hlow.1.2
    obtain ⟨st2, h2⟩ := ih2 st1 hsc.2 hint.2 hlow.2
    obtain ⟨st3, h3⟩ := rt_call_mono_total "ht_get" (hR _ hlow.1.1) st2
    exact ⟨st3, by simp [translate_atom, h1, h2, h3]⟩
  | index a i ty ih1 ih2 =>
    intro st hsc hint hlow
    rw [atomScope, Bool.and_eq_true] at hsc
    rw [internedAtom, Bool.and_eq_true] at hint
    rw [atomLower, Bool.and_eq_true, Bool.and_eq_true] at hlow
    obtain ⟨st1, h1⟩ := ih1 st hsc.1 hint.1 hlow.1.2
    obtain ⟨st2, h2⟩ := ih2 st1 hsc.2 hint.2 hlow.2
    obtain ⟨st3, h3⟩ := rt_call_mono_total "array_index" (hR _ hlow.1.1) st2
    exact ⟨st3, by simp [translate_atom, h1, h2, h3]⟩
  | stringLen s ih =>
    intro st hsc hint hlow
    rw [atomScope] at hsc
    rw [internedAtom] at hint
    rw [atomLower, Bool.and_eq_true] at hlow
    obtain ⟨st1, h1⟩ := ih st hsc hint hlow.2
    obtain ⟨st2, h2⟩ := rt_call_total (hR _ hlow.1) st1
    exact ⟨st2, by simp [translate_atom, h1, h2]⟩
  | binary op a b ih1 ih2 =>
    intro st hsc hint hlow
    rw [atomScope, Bool.and_eq_true] at hsc
    rw [internedAtom, Bool.and_eq_true] at hint
    rw [atomLower, Bool.and_eq_true] at hlow
    obtain ⟨st1, h1⟩ := ih1 st hsc.1 hint.1 hlow.1
    obtain ⟨st2, h2⟩ := ih2 st1 hsc.2 hint.2 hlow.2
    exact ⟨emit st2 (translate_binop op), by simp [translate_atom, h1, h2]⟩

theorem push_args_total {env : Env} {Γ : Ctx} (hm : envMatches env Γ) :
    ∀ (args : List NId) (st : TState),
      args.all (fun a => isLocArg Γ a) = true →
      ∃ st', push_args env args st = some st' := by
  intro args
  induction args with
  | nil => intro st _; exact ⟨st, rfl⟩
  | cons a rest ih =>
    intro st hall
    rw [List.all_cons, Bool.and_eq_true] at hall
    have hloc := hall.1
    unfold isLocArg at hloc
    rw [lookup_matches hm] at hloc
    cases hl : lookupA env.ids a with
    | none => rw [hl] at hloc; simp at hloc
    | some v =>
      cases v with
      | Fun n => rw [hl] at hloc; simp [kindOf] at hloc
      | Local n t =>
        obtain ⟨st', h'⟩ := ih (emit st (.getLocal n)) hall.2
        refine ⟨st', ?_⟩
        rw [push_args]
        have hidx : env.index_of_id a = some n := by
          unfold Env.index_of_id
          rw [hl]
        rw [hidx]
        simpa using h'

theorem translate_expr_total {rt : RtIdx} {env : Env} {Γ : Ctx}
    {R : List String} (hR : ∀ n, hasStr R n = true → (lookupA rt n).isSome)
    (hm : envMatches env Γ) :
    ∀ (e : Expr) (st : TState),
      exprScope Γ e = true → internedExpr e = true →
      exprLower R e = true →
      ∃ st', translate_expr rt env e st = some st' := by
  intro e st hsc hint hlow
  cases e with
  | atom a => exact translate_atom_total hR hm a st hsc hint hlow
  | ht ty =>
    obtain ⟨st', h'⟩ := rt_call_mono_total "ht_new" (hR _ hlow) st
    exact ⟨st', h'⟩
  | array ty =>
    obtain ⟨st', h'⟩ := rt_call_mono_total "array_new" (hR _ hlow) st
    exact ⟨st', h'⟩
  | htSet h f v ty =>
    rw [exprScope, Bool.and_eq_true, Bool.and_eq_true] at hsc
    rw [internedExpr, Bool.and_eq_true, Bool.and_eq_true] at hint
    rw [exprLower, Bool.and_eq_true, Bool.and_eq_true, Bool.and_eq_true] at hlow
    obtain ⟨st1, h1⟩ := translate_atom_total hR hm h st hsc.1.1 hint.1.1 hlow.1.1.2
    obtain ⟨st2, h2⟩ := translate_atom_total hR hm f st1 hsc.1.2 hint.1.2 hlow.1.2
    obtain ⟨st3, h3⟩ := translate_atom_total hR hm v st2 hsc.2 hint.2 hlow.2
    obtain ⟨st4, h4⟩ := rt_call_mono_total "ht_set" (hR _ hlow.1.1.1) st3
    exact ⟨st4, by simp [translate_expr, h1, h2, h3, h4]⟩
  | push a v ty =>
    rw [exprScope, Bool.and_eq_true] at hsc
    rw [internedExpr, Bool.and_eq_true] at hint
    rw [exprLower, Bool.and_eq_true, Bool.and_eq_true] at hlow
    obtain ⟨st1, h1⟩ := translate_atom_total hR hm a st hsc.1 hint.1 hlow.1.2
    obtain ⟨st2, h2⟩ := translate_atom_total hR hm v st1 hsc.2 hint.2 hlow.2
    obtain ⟨st3, h3⟩ := rt_call_mono_total "array_push" (hR _ hlow.1.1) st2
    exact ⟨st3, by simp [translate_expr, h1, h2, h3]⟩
  | callDirect f args =>
    rw [exprScope, Bool.and_eq_true] at hsc
    obtain ⟨st1, h1⟩ := push_args_total hm args st hsc.2
    have hfn := hsc.1
    unfold isFunId at hfn
    rw [lookup_matches hm] at hfn
    cases hl : lookupA env.ids f with
    | none => rw [hl] at hfn; simp at hfn
    | some v =>
      cases v with
      | Local n t => rw [hl] at hfn; simp [kindOf] at hfn
      | Fun i =>
        exact ⟨emit st1 (.call ((i + rt.length) % 2 ^ 32)),
          by simp [translate_expr, h1, hl]⟩
  | callIndirect f ft args => exact absurd hlow (by simp [exprLower])
  | toString a =>
    rw [exprScope] at hsc
    rw [internedExpr] at hint
    rw [exprLower, Bool.and_eq_true] at hlow
    obtain ⟨st1, h1⟩ := translate_atom_total hR hm a st hsc hint hlow.2
    obtain ⟨st2, h2⟩ := rt_call_total (hR _ hlow.1) st1
    exact ⟨st2, by simp [translate_expr, h1, h2]⟩

theorem index_of_id_total {env : Env} {Γ : Ctx} (hm : envMatches env Γ)
    {x : NId} (h : isLocArg Γ x = true) : ∃ n, env.index_of_id x = some n := by
  unfold isLocArg at h
  rw [lookup_matches hm] at h
  cases hl : lookupA env.ids x with
  | none => rw [hl] at h; simp at h
  | some v =>
    cases v with
    | Fun n => rw [hl] at h; simp [kindOf] at h
    | Local n t =>
      refine ⟨n, ?_⟩
      unfold Env.index_of_id
      rw [hl]

theorem pushLabel_matches {env : Env} {Γ : Ctx} (hm : envMatches env Γ)
    (l : TranslateLabel) : envMatches (env.pushLabel l) Γ := hm

/-- Totality of statement lowering: a scope-correct, interned, goto-free
statement whose runtime references are all linked translates successfully,
and the resulting environment matches the checker's outgoing context. -/
theorem translate_rec_total (rt : RtIdx) (R : List String)
    (hR : ∀ n, hasStr R n = true → (lookupA rt n).isSome)
    (s : Stmt) (env : Env) (st : TState) :
    ∀ (Γ Γ' : Ctx) (Λ : List TranslateLabel),
      stmtScope Γ Λ s = some Γ' →
      gotoFreeStmt s = true →
      internedStmt s = true →
      stmtLower R s = true →
      envMatches env Γ → env.labels = Λ →
      ∃ st' env', translate_rec rt s env st = some (st', env') ∧
        envMatches env' Γ' ∧ env'.labels = Λ := by
  induction s, env, st using translate_rec.induct rt
    (motive_2 := fun ss env st => ∀ (Γ Γ' : Ctx) (Λ : List TranslateLabel),
      stmtScopeList Γ Λ ss = some Γ' →
      gotoFreeStmtList ss = true →
      internedStmtList ss = true →
      stmtLowerList R ss = true →
      envMatches env Γ → env.labels = Λ →
      ∃ st' env', translate_rec_list rt ss env st = some (st', env') ∧
        envMatches env' Γ' ∧ env'.labels = Λ) with
  | case1 env st =>
    intro Γ Γ' Λ hsc _ _ _ hm hlab
    rw [stmtScope] at hsc
    injection hsc with hsc
    exact ⟨st, env, rfl, hsc ▸ hm, hlab⟩
  | case2 env st ss ih =>
    intro Γ Γ' Λ hsc hgf hint hlow hm hlab
    rw [stmtScope] at hsc
    obtain ⟨Γ'', hlist, hG⟩ := Option.map_eq_some'.mp hsc
    rw [gotoFreeStmt] at hgf
    rw [internedStmt] at hint
    rw [stmtLower] at hlow
    obtain ⟨st1, env1, hrec, _, _⟩ := ih Γ Γ'' Λ hlist hgf hint hlow hm hlab
    refine ⟨st1, env, ?_, hG ▸ hm, hlab⟩
    simp [translate_rec, hrec]
  | case3 env st x e ty =>
    intro Γ Γ' Λ hsc _ hint hlow hm hlab
    rw [stmtScope] at hsc
    rw [internedStmt] at hint
    rw [stmtLower] at hlow
    by_cases he : exprScope Γ e
    · rw [if_pos he] at hsc
      injection hsc with hsc
      obtain ⟨st1, h1⟩ := translate_expr_total hR hm e st he hint hlow
      have hres : translate_rec rt (.var x e ty) env st =
          some (emit { st1 with nextId := st1.nextId + 1, locals := st1.locals ++ [ty.as_wasm] }
              (.setLocal st1.nextId),
            env.insertId x (.Local st1.nextId ty)) := by
        simp [translate_rec, h1]
      exact ⟨_, _, hres,
        by rw [← hsc]; exact insert_matches hm x (.Local st1.nextId ty), hlab⟩
    · rw [if_neg he] at hsc
      exact absurd hsc (by simp)
  | case4 env st x e =>
    intro Γ Γ' Λ hsc _ hint hlow hm hlab
    rw [stmtScope] at hsc
    rw [internedStmt] at hint
    rw [stmtLower] at hlow
    by_cases he : exprScope Γ e && isLocArg Γ x
    · rw [if_pos he] at hsc
      injection hsc with hsc
      rw [Bool.and_eq_true] at he
      obtain ⟨st1, h1⟩ := translate_expr_total hR hm e st he.1 hint hlow
      obtain ⟨n, hn⟩ := index_of_id_total hm he.2
      refine ⟨emit st1 (.setLocal n), env, ?_, hsc ▸ hm, hlab⟩
      simp [translate_rec, h1, hn]
    · rw [if_neg he] at hsc
      exact absurd hsc (by simp)
  | case5 env st cond conseq alt ih1 ih2 =>
    intro Γ Γ' Λ hsc hgf hint hlow hm hlab
    rw [stmtScope] at hsc
    rw [gotoFreeStmt, Bool.and_eq_true] at hgf
    rw [internedStmt, Bool.and_eq_true, Bool.and_eq_true] at hint
    rw [stmtLower, Bool.and_eq_true, Bool.and_eq_true] at hlow
    by_cases hc : atomScope Γ cond
    · rw [if_pos hc] at hsc
      simp only [Option.bind_eq_bind, Option.bind_eq_some] at hsc
      obtain ⟨Γa, ha, Γb, hb, hG⟩ := hsc
      injection hG with hG
      obtain ⟨st1, h1⟩ := translate_atom_total hR hm cond st hc hint.1.1 hlow.1.1
      obtain ⟨st2, env2, hrec1, _, _⟩ := ih1 st1 Γ Γa (.unused :: Λ) ha hgf.1
        hint.1.2 hlow.1.2 (pushLabel_matches hm _) (by simp [Env.pushLabel, hlab])
      obtain ⟨st3, env3, hrec2, _, _⟩ := ih2 st2 Γ Γb (.unused :: Λ) hb hgf.2
        hint.2 hlow.2 (pushLabel_matches hm _) (by simp [Env.pushLabel, hlab])
      refine ⟨emit st3 .endI, env, ?_, hG ▸ hm, hlab⟩
      simp [translate_rec, h1, hrec1, hrec2]
    · rw [if_neg hc] at hsc
      exact absurd hsc (by simp)
  | case6 env st body stL ih =>
    intro Γ Γ' Λ hsc hgf hint hlow hm hlab
    rw [stmtScope] at hsc
    obtain ⟨Γb, hin, hG⟩ := Option.map_eq_some'.mp hsc
    rw [gotoFreeStmt] at hgf
    rw [internedStmt] at hint
    rw [stmtLower] at hlow
    obtain ⟨st2, env2, hrec, _, _⟩ := ih Γ Γb (.unused :: Λ) hin hgf hint hlow
      (pushLabel_matches hm _) (by simp [Env.pushLabel, hlab])
    refine ⟨emit (emit st2 (.br 0)) .endI, env, ?_, hG ▸ hm, hlab⟩
    simp [translate_rec, hrec]
  | case7 env st s a =>
    intro Γ Γ' Λ _ hgf _ _ _ _
    exact absurd hgf (by simp [gotoFreeStmt])
  | case8 env st x s stL hApp ih =>
    intro Γ Γ' Λ hsc hgf hint hlow hm hlab
    cases x with
    | app a => exact absurd rfl (hApp a)
    | named n =>
      rw [stmtScope] at hsc
      obtain ⟨Γs, hin, hG⟩ := Option.map_eq_some'.mp hsc
      simp only [gotoFreeStmt, Bool.true_and] at hgf
      rw [internedStmt] at hint
      rw [stmtLower] at hlow
      obtain ⟨st2, env2, hrec, _, _⟩ := ih Γ Γs (.label (.named n) :: Λ) hin hgf
        hint hlow (pushLabel_matches hm _) (by simp [Env.pushLabel, hlab])
      refine ⟨emit st2 .endI, env, ?_, hG ▸ hm, hlab⟩
      simp [translate_rec, hrec]
  | case9 env st l =>
    intro Γ Γ' Λ hsc _ _ _ hm hlab
    rw [stmtScope] at hsc
    by_cases hl : (idxOfLabel Λ (.label l)).isSome
    · rw [if_pos hl] at hsc
      injection hsc with hsc
      cases hi : idxOfLabel Λ (.label l) with
      | none => rw [hi] at hl; exact absurd hl (by simp)
      | some i =>
        refine ⟨emit st (.br i), env, ?_, hsc ▸ hm, hlab⟩
        simp [translate_rec, hlab, hi]
    · rw [if_neg hl] at hsc
      exact absurd hsc (by simp)
  | case10 env st a =>
    intro Γ Γ' Λ hsc _ hint hlow hm hlab
    rw [stmtScope] at hsc
    rw [internedStmt] at hint
    rw [stmtLower] at hlow
    by_cases ha : atomScope Γ a
    · rw [if_pos ha] at hsc
      injection hsc with hsc
      obtain ⟨st1, h1⟩ := translate_atom_total hR hm a st ha hint hlow
      refine ⟨emit st1 .ret, env, ?_, hsc ▸ hm, hlab⟩
      simp [translate_rec, h1]
    · rw [if_neg ha] at hsc
      exact absurd hsc (by simp)
  | case11 env st =>
    intro Γ Γ' Λ hsc _ _ _ hm hlab
    rw [stmtScope] at hsc
    injection hsc with hsc
    exact ⟨emit st .unreachable, env, rfl, hsc ▸ hm, hlab⟩
  | case12 env st a =>
    intro Γ Γ' Λ _ hgf _ _ _ _
    exact absurd hgf (by simp [gotoFreeStmt])
  | case13 env st =>
    rename_i Γ Γ' Λ hsc hgf2 hint2 hlow2 hm hlab
    rw [stmtScopeList] at hsc
    injection hsc with hsc
    exact ⟨st, env, rfl, hsc ▸ hm, hlab⟩
  | case14 env st s rest ih1 ih2 =>
    rename_i Γ Γ' Λ hsc hgf hint hlow hm hlab
    rw [stmtScopeList] at hsc
    simp only [Option.bind_eq_bind, Option.bind_eq_some] at hsc
    obtain ⟨Γ1, hs1, hrest⟩ := hsc
    rw [gotoFreeStmtList, Bool.and_eq_true] at hgf
    rw [internedStmtList, Bool.and_eq_true] at hint
    rw [stmtLowerList, Bool.and_eq_true] at hlow
    obtain ⟨st1, env1, hr1, hm1, hlab1⟩ := ih1 Γ Γ1 Λ hs1 hgf.1 hint.1 hlow.1
      hm hlab
    obtain ⟨st2, env2, hr2, hm2, hlab2⟩ := ih2 st1 env1 Γ1 Γ' Λ hrest hgf.2
      hint.2 hlow.2 hm1 hlab1
    refine ⟨st2, env2, ?_, hm2, hlab2⟩
    simp [translate_rec_list, hr1, hr2]

theorem bind_params_matches :
    ∀ (l : List (NId × Ty)) (env : Env) (Γ : Ctx) (n : Nat),
      envMatches env Γ →
      envMatches (bind_params env l n).1 (bindParamsCtx Γ l) ∧
      (bind_params env l n).1.labels = env.labels := by
  intro l
  induction l with
  | nil => intro env Γ n hm; exact ⟨hm, rfl⟩
  | cons q rest ih =>
    intro env Γ n hm
    obtain ⟨x, ty⟩ := q
    rw [bind_params, bindParamsCtx]
    have := ih (env.insertId x (.Local n ty)) (insertA x .loc Γ) (n + 1)
      (insert_matches hm x (.Local n ty))
    exact ⟨this.1, this.2⟩

theorem initial_matches :
    ∀ (l : List (NId × Func)) (i : Nat) (env : Env) (Γ : Ctx),
      envMatches env Γ →
      envMatches (initial_env_loop l i env) (initial_ctx_loop l Γ) ∧
      (initial_env_loop l i env).labels = env.labels := by
  intro l
  induction l with
  | nil => intro i env Γ hm; exact ⟨hm, rfl⟩
  | cons q rest ih =>
    intro i env Γ hm
    obtain ⟨name, f⟩ := q
    rw [initial_env_loop, initial_ctx_loop]
    have := ih (i + 1) (env.insertId name (.Fun i)) (insertA name .fnk Γ)
      (insert_matches hm name (.Fun i))
    exact ⟨this.1, this.2⟩

/-- Whether a runtime binding carries a function type (all must,
`translation.rs` panics otherwise). -/
def isFnTy : Ty → Bool
  | .fn _ _ => true
  | _ => false

/-- Extending the type section and its mirror table with a fresh signature. -/
theorem mirrors_extend {types : List WasmSig} {tyIdx : TyIdx} {sig : WasmSig}
    (hm : tyIdx_mirrors types tyIdx) (hfi : firstIdx types sig = none) :
    tyIdx_mirrors (types ++ [sig]) (tyIdx ++ [(sig, types.length)]) := by
  obtain ⟨hlook, hsnd, hfst, hlen⟩ := hm
  refine ⟨?_, ?_, ?_, ?_⟩
  · intro s
    cases hs : lookupA tyIdx s with
    | some j =>
      rw [lookupA_append_left hs]
      have : firstIdx types s = some j := by rw [← hlook]; exact hs
      exact (firstIdx_append_left this _).symm
    | none =>
      rw [lookupA_append_right hs]
      have hnone : firstIdx types s = none := by rw [← hlook]; exact hs
      rw [firstIdx_append_singleton hnone]
      by_cases he : sig = s
      · rw [if_pos he]
        simp [lookupA, he]
      · rw [if_neg he]
        simp [lookupA, he]
  · rw [List.map_append, hsnd, List.length_append]
    simp [hlen, List.range_succ]
  · rw [List.map_append]
    have hnotin : sig ∉ tyIdx.map Prod.fst := by
      by_contra hc
      have := lookupA_isSome_of_mem hc
      rw [hlook, hfi] at this
      exact absurd this (by simp)
    simp [List.nodup_append, hfst, hnotin]
  · simp [hlen]

/-- Totality of the runtime-import loop: function-typed bindings are always
imported successfully (the deduplication assertion cannot fire when the table
mirrors the type section). -/
theorem rt_import_loop_total :
    ∀ (rts : List (String × Ty)) (funcI : Nat) (types : List WasmSig)
      (imports : List (String × Nat)) (rtIdx : RtIdx) (tyIdx : TyIdx),
      rts.all (fun q => isFnTy q.2) = true →
      tyIdx_mirrors types tyIdx →
      ∃ out, rt_import_loop rts funcI (types, imports, rtIdx, tyIdx) = some out := by
  intro rts
  induction rts with
  | nil => intro funcI types imports rtIdx tyIdx _ _; exact ⟨_, rfl⟩
  | cons q rest ih =>
    intro funcI types imports rtIdx tyIdx hall hm
    rw [List.all_cons, Bool.and_eq_true] at hall
    obtain ⟨name, ty⟩ := q
    cases ty with
    | fn params retTy =>
      cases hfi : firstIdx types (types_as_wasm params, option_as_wasm retTy) with
      | some i =>
        have hps : push_signature types (types_as_wasm params, option_as_wasm retTy) =
            (types, i) := by simp [push_signature, hfi]
        have hchk : tyIdx_entry_check tyIdx (types_as_wasm params, option_as_wasm retTy)
            i = some tyIdx := by
          unfold tyIdx_entry_check
          rw [hm.1, hfi]
          simp
        obtain ⟨out, hout⟩ := ih (funcI + 1) types
          (imports ++ [(name, i)]) (insertA name funcI rtIdx) tyIdx hall.2 hm
        refine ⟨out, ?_⟩
        rw [rt_import_loop, hps]
        simp only [Option.bind_eq_bind]
        rw [hchk]
        simpa using hout
      | none =>
        have hps : push_signature types (types_as_wasm params, option_as_wasm retTy) =
            (types ++ [(types_as_wasm params, option_as_wasm retTy)], types.length) := by
          simp [push_signature, hfi]
        have hchk : tyIdx_entry_check tyIdx (types_as_wasm params, option_as_wasm retTy)
            types.length =
            some (tyIdx ++ [((types_as_wasm params, option_as_wasm retTy), types.length)]) := by
          unfold tyIdx_entry_check
          rw [hm.1, hfi]
        obtain ⟨out, hout⟩ := ih (funcI + 1)
          (types ++ [(types_as_wasm params, option_as_wasm retTy)])
          (imports ++ [(name, types.length)]) (insertA name funcI rtIdx)
          (tyIdx ++ [((types_as_wasm params, option_as_wasm retTy), types.length)])
          hall.2 (mirrors_extend hm hfi)
        refine ⟨out, ?_⟩
        rw [rt_import_loop, hps]
        simp only [Option.bind_eq_bind]
        rw [hchk]
        simpa using hout
    | i32 => exact absurd hall.1 (by simp [isFnTy])
    | f64 => exact absurd hall.1 (by simp [isFnTy])
    | bool => exact absurd hall.1 (by simp [isFnTy])
    | str => exact absurd hall.1 (by simp [isFnTy])
    | any => exact absurd hall.1 (by simp [isFnTy])
    | array => exact absurd hall.1 (by simp [isFnTy])
    | dynObject => exact absurd hall.1 (by simp [isFnTy])
    | ht t => exact absurd hall.1 (by simp [isFnTy])

/-- Every runtime binding's name is present in the `rt_indexes` map produced
by the runtime-import loop. -/
theorem rt_import_loop_names :
    ∀ (rts : List (String × Ty)) (funcI : Nat) (types : List WasmSig)
      (imports : List (String × Nat)) (rtIdx : RtIdx) (tyIdx : TyIdx)
      (out : List WasmSig × List (String × Nat) × RtIdx × TyIdx),
      rt_import_loop rts funcI (types, imports, rtIdx, tyIdx) = some out →
      ∀ n, (hasStr (rts.map Prod.fst) n = true ∨ (lookupA rtIdx n).isSome) →
        (lookupA out.2.2.1 n).isSome := by
  intro rts
  induction rts with
  | nil =>
    intro funcI types imports rtIdx tyIdx out h n hd
    simp only [rt_import_loop] at h
    injection h with h
    rw [← h]
    rcases hd with hd | hd
    · simp [hasStr] at hd
    · exact hd
  | cons q rest ih =>
    intro funcI types imports rtIdx tyIdx out h n hd
    obtain ⟨name, ty⟩ := q
    cases ty with
    | fn params retTy =>
      simp only [rt_import_loop, Option.bind_eq_bind, Option.bind_eq_some] at h
      obtain ⟨T, _, hrec⟩ := h
      refine ih _ _ _ _ _ _ hrec n ?_
      by_cases hn : name = n
      · right
        subst hn
        rw [lookupA_insertA_self]
        rfl
      · rcases hd with hd | hd
        · rw [List.map_cons, hasStr, if_neg hn] at hd
          exact Or.inl hd
        · right
          rw [lookupA_insertA_ne name n (fun hc => hn hc.symm)]
          exact hd
    | i32 => exact absurd h (by simp [rt_import_loop])
    | f64 => exact absurd h (by simp [rt_import_loop])
    | bool => exact absurd h (by simp [rt_import_loop])
    | str => exact absurd h (by simp [rt_import_loop])
    | any => exact absurd h (by simp [rt_import_loop])
    | array => exact absurd h (by simp [rt_import_loop])
    | dynObject => exact absurd h (by simp [rt_import_loop])
    | ht t => exact absurd h (by simp [rt_import_loop])

theorem globals_loop_total {env : Env} {Γ : Ctx} (hm : envMatches env Γ) :
    ∀ (gl : List (NId × Atom)),
      gl.all (fun q => atomScope Γ q.2) = true →
      gl.all (fun q => internedAtom q.2) = true →
      gl.all (fun q => atomLower [] q.2) = true →
      globals_loop env gl = some () := by
  intro gl
  induction gl with
  | nil => intro _ _ _; rfl
  | cons q rest ih =>
    intro hsc hint hlow
    rw [List.all_cons, Bool.and_eq_true] at hsc hint hlow
    have hRnil : ∀ n, hasStr ([] : List String) n = true →
        (lookupA ([] : RtIdx) n).isSome := by
      intro n hn
      simp [hasStr] at hn
    obtain ⟨st', h'⟩ := translate_atom_total hRnil hm q.2
      { out := [], locals := [], nextId := 0 } hsc.1 hint.1 hlow.1
    rw [globals_loop]
    simp only [Option.bind_eq_bind]
    rw [h']
    simpa using ih hsc.2 hint.2 hlow.2

theorem find_main_index_isSome {names : List NId} (offset : Nat)
    (h : NId.named "main" ∈ names) :
    (find_main_index names offset).isSome := by
  unfold find_main_index
  have hkeep : ∀ (l : List (Nat × NId)) (acc : Option Nat), acc.isSome →
      (l.foldl (fun acc p =>
        if p.2 = NId.named "main" then some ((p.1 + offset) % 2 ^ 32) else acc)
        acc).isSome := by
    intro l
    induction l with
    | nil => intro acc h'; exact h'
    | cons p rest ih =>
      intro acc h'
      rw [List.foldl_cons]
      apply ih
      by_cases hp : p.2 = NId.named "main"
      · rw [if_pos hp]; rfl
      · rw [if_neg hp]; exact h'
  have hmem : ∀ (l : List (Nat × NId)) (acc : Option Nat),
      NId.named "main" ∈ l.map Prod.snd →
      (l.foldl (fun acc p =>
        if p.2 = NId.named "main" then some ((p.1 + offset) % 2 ^ 32) else acc)
        acc).isSome := by
    intro l
    induction l with
    | nil => intro acc h'; simp at h'
    | cons p rest ih =>
      intro acc h'
      rw [List.foldl_cons]
      by_cases hp : p.2 = NId.named "main"
      · rw [if_pos hp]
        exact hkeep rest _ rfl
      · rw [if_neg hp]
        simp only [List.map_cons, List.mem_cons] at h'
        rcases h' with h' | h'
        · exact absurd h'.symm hp
        · exact ih acc h'
  exact hmem names.enum none (by simpa [List.enum_map_snd] using h)

theorem mem_of_filter_pos {α : Type} {l : List (NId × α)} {k : NId}
    (h : 1 ≤ (l.filter (fun q => q.1 = k)).length) : k ∈ l.map Prod.fst := by
  induction l with
  | nil => simp at h
  | cons q rest ih =>
    rw [List.filter_cons] at h
    by_cases hq : q.1 = k
    · rw [List.map_cons]
      exact List.mem_cons.mpr (Or.inl hq.symm)
    · rw [if_neg (by simp [hq])] at h
      exact List.mem_cons.mpr (Or.inr (ih h))

theorem translate_func_total (rt : RtIdx) (R : List String)
    (hR : ∀ n, hasStr R n = true → (lookupA rt n).isSome)
    (tyIdx : TyIdx) (env : Env) (Γ : Ctx) (func : Func) (name : NId)
    (hm : envMatches env Γ) (hlab : env.labels = [])
    (hsc : (stmtScope (bindParamsCtx Γ (func.params.zip func.fnType.args)) []
      func.body).isSome = true)
    (hgf : gotoFreeStmt func.body = true) (hint : internedStmt func.body = true)
    (hlow : stmtLower R func.body = true)
    (hinit : (lookupA rt "init").isSome) :
    ∃ fd, translate_func rt tyIdx env func name = some fd := by
  have hlb : ∃ insts locals, lower_body rt env func = some (insts, locals) := by
    unfold lower_body
    cases hbp : bind_params env (func.params.zip func.fnType.args) 0 with
    | mk envP nP =>
      obtain ⟨Γ', heq⟩ := Option.isSome_iff_exists.mp hsc
      have hmp := bind_params_matches (func.params.zip func.fnType.args) env Γ 0 hm
      rw [hbp] at hmp
      obtain ⟨st', env', hrec, _, _⟩ := translate_rec_total rt R hR func.body envP
        { out := [], locals := [], nextId := nP } _ _ [] heq hgf hint hlow hmp.1
        (by rw [hmp.2, hlab])
      exact ⟨st'.out ++ [.endI], st'.locals, by simp [hrec]⟩
  obtain ⟨insts, locals, hlb⟩ := hlb
  by_cases hname : name = NId.named "main"
  · obtain ⟨i, hi⟩ := Option.isSome_iff_exists.mp hinit
    refine ⟨{ params := types_as_wasm func.fnType.args,
              result := option_as_wasm func.fnType.result,
              locals := locals, body := Instruction.call i :: insts }, ?_⟩
    simp [translate_func, hlb, hname, hi]
  · refine ⟨{ params := types_as_wasm func.fnType.args,
              result := option_as_wasm func.fnType.result,
              locals := locals, body := insts }, ?_⟩
    simp [translate_func, hlb, hname]

theorem push_functions_total (rt : RtIdx) (R : List String)
    (hR : ∀ n, hasStr R n = true → (lookupA rt n).isSome)
    (tyIdx : TyIdx) (env : Env) (Γ : Ctx)
    (hm : envMatches env Γ) (hlab : env.labels = [])
    (hinit : (lookupA rt "init").isSome) :
    ∀ (functions : List (NId × Func)) (types : List WasmSig),
      functions.all (fun q => (stmtScope
        (bindParamsCtx Γ (q.2.params.zip q.2.fnType.args)) [] q.2.body).isSome) = true →
      functions.all (fun q => gotoFreeStmt q.2.body) = true →
      functions.all (fun q => internedStmt q.2.body) = true →
      functions.all (fun q => stmtLower R q.2.body) = true →
      ∃ out, push_functions rt tyIdx env functions types = some out := by
  intro functions
  induction functions with
  | nil => intro types _ _ _ _; exact ⟨_, rfl⟩
  | cons q rest ih =>
    intro types hsc hgf hint hlow
    rw [List.all_cons, Bool.and_eq_true] at hsc hgf hint hlow
    obtain ⟨fd, hfd⟩ := translate_func_total rt R hR tyIdx env Γ q.2 q.1 hm hlab
      hsc.1 hgf.1 hint.1 hlow.1 hinit
    obtain ⟨out, hout⟩ := ih (push_signature types (fd.params, fd.result)).1
      hsc.2 hgf.2 hint.2 hlow.2
    refine ⟨(fd :: out.1, out.2), ?_⟩
    rw [push_functions]
    obtain ⟨qn, qf⟩ := q
    simp only [Option.bind_eq_bind]
    rw [hfd]
    simp only [Option.some_bind]
    rw [hout]
    rfl

/-- Claim C1 (amended): for every closed, interned, goto-free, well-typed
program with exactly one zero-argument `main` that moreover contains no
indirect call and no floating-point literal, whose container operations'
monomorphized names are all present in the (function-typed, `init`-providing)
runtime linkage, whose global initializers are runtime-free, and whose
function count fits the `u32` index space, translation succeeds and produces
a module. -/
theorem translation_succeeds (rts : List (String × Ty)) (p : Program)
    (hfn : rts.all (fun q => isFnTy q.2) = true)
    (hinitn : hasStr (rts.map Prod.fst) "init" = true)
    (hcap : p.functions.length ≤ 2 ^ 32)
    (hclosed : closedProgram p = true)
    (hintp : internedProgram p = true)
    (hgfp : gotoFreeProgram p = true)
    (_hwt : wellTypedProgram p = true)
    (hmain : uniqueZeroArgMain p = true)
    (hlowp : lowerProgram (rts.map Prod.fst) p = true) :
    (translate_parity rts p).isSome = true := by
  obtain ⟨⟨types, imports, rtIdx, tyIdx⟩, hloop⟩ :=
    rt_import_loop_total rts 0 [] [] [] [] hfn
      ⟨fun _ => rfl, rfl, List.nodup_nil, rfl⟩
  have hR : ∀ n, hasStr (rts.map Prod.fst) n = true → (lookupA rtIdx n).isSome := by
    intro n hn
    exact rt_import_loop_names rts 0 [] [] [] [] _ hloop n (Or.inl hn)
  rw [closedProgram, Bool.and_eq_true] at hclosed
  rw [internedProgram, Bool.and_eq_true] at hintp
  rw [gotoFreeProgram] at hgfp
  rw [lowerProgram, Bool.and_eq_true] at hlowp
  rw [uniqueZeroArgMain, Bool.and_eq_true] at hmain
  have hmatch := initial_matches p.functions 0 { labels := [], ids := [] } [] rfl
  have hglob : globals_loop (initial_env p.functions) p.globals = some () :=
    globals_loop_total hmatch.1 p.globals hclosed.2 hintp.2 hlowp.2
  have hcnt : count_mains p = 1 := of_decide_eq_true hmain.1
  have hmem : NId.named "main" ∈ p.functions.map Prod.fst :=
    mem_of_filter_pos (by unfold count_mains at hcnt; omega)
  obtain ⟨mainIdx, hfindm⟩ := Option.isSome_iff_exists.mp
    (find_main_index_isSome rtIdx.length hmem)
  obtain ⟨pf, hpush⟩ := push_functions_total rtIdx (rts.map Prod.fst) hR
    (add_user_types tyIdx (p.functions.map Prod.snd)) (initial_env p.functions)
    (initial_ctx p.functions) hmatch.1 hmatch.2 (hR "init" hinitn)
    p.functions types hclosed.1 hgfp hintp.1 hlowp.1
  unfold translate_parity
  rw [if_pos hcap]
  simp only [Option.bind_eq_bind]
  rw [hloop]
  simp only [Option.some_bind]
  rw [hglob]
  simp only [Option.some_bind]
  rw [hpush]
  simp only [Option.some_bind]
  rw [hfindm]
  rfl

/-- The concrete program `function main(): i32 { var x: i32 = 5; return x }`,
satisfying every hypothesis of the amended C1. -/
def programOkW : Program :=
  { functions := [(NId.named "main",
      { params := [], fnType := { args := [], result := some .i32 },
        body := .block [
          .var (NId.named "x") (.atom (.lit (.i32 5))) .i32,
          .ret (.id (NId.named "x"))] })],
    globals := [], data := [] }

/-- Witness for the amended C1 at `programOkW` over the modelled runtime
linkage table. -/
theorem translation_succeeds_witness :
    (translate_parity get_rt_bindings programOkW).isSome = true :=
  translation_succeeds get_rt_bindings programOkW rfl rfl
    (by norm_num [programOkW]) rfl rfl rfl rfl rfl rfl

/-- The concrete program `function main(): f64 { return <float literal> }`:
closed, interned, goto-free, well-typed, with a unique zero-argument `main`. -/
def programF64W : Program :=
  { functions := [(NId.named "main",
      { params := [], fnType := { args := [], result := some .f64 },
        body := .ret (.lit .f64) })],
    globals := [], data := [] }

/-- Counterexample to C1 as stated: `programF64W` is closed, interned,
goto-free and well-typed and has exactly one zero-argument `main`, yet
translation aborts (the floating-point literal reaches the `todo!()` branch
of `translate_atom`) and produces no module.  An indirect call
(`panic!("Indirect calls")`) refutes the claim the same way. -/
theorem translation_succeeds_counterexample :
    closedProgram programF64W = true ∧
    internedProgram programF64W = true ∧
    gotoFreeProgram programF64W = true ∧
    wellTypedProgram programF64W = true ∧
    uniqueZeroArgMain programF64W = true ∧
    translate programF64W = none :=
  ⟨rfl, rfl, rfl, rfl, rfl, rfl⟩

end NotWasm
